import Mathlib

/-!
Verification of the elliptic-curve arithmetic module `lab4/ecc_logic.py`
of the repository under review.  Python integers are modelled as `ℤ`; the
Python operators `%` and `//` are floored, i.e. `Int.fmod` and `Int.fdiv`;
`pow(b, e, m)` is `(b ^ e).fmod m`.  Python exceptions are modelled by
`Except PyErr`.  All definitions are executable.
-/

namespace ECC

/-- Python exception classes raised by `lab4/ecc_logic.py`. -/
inductive PyErr
  | valueError
  | typeError
  | runtimeError
  | zeroDivisionError
deriving DecidableEq, Repr

/-- Fuel-indexed core of `extended_gcd` (`lab4/ecc_logic.py` lines 6-12).
The fuel argument only makes the recursion structural; `extended_gcd`
supplies enough fuel for the value to be fuel-independent. -/
def egcdF : ℕ → ℤ → ℤ → ℤ × ℤ × ℤ
  | 0, _, b => (b, 0, 1)
  | F + 1, a, b =>
    if a = 0 then (b, 0, 1)
    else
      let r := egcdF F (b.fmod a) a
      (r.1, r.2.2 - b.fdiv a * r.2.1, r.2.1)

/-- Translation of `extended_gcd`: returns `(d, x, y)` with `d = a*x + b*y`. -/
def extended_gcd (a b : ℤ) : ℤ × ℤ × ℤ := egcdF (a.natAbs + 1) a b

/-- Translation of `mod_inv` (lines 15-19): `ValueError` when the first
component of the extended gcd is not 1; Python additionally raises
`ZeroDivisionError` evaluating `x % 0`. -/
def mod_inv (a m : ℤ) : Except PyErr ℤ :=
  if (extended_gcd a m).1 ≠ 1 then .error .valueError
  else if m = 0 then .error .zeroDivisionError
  else .ok ((extended_gcd a m).2.1.fmod m)

/-- Python `pow(b, e, m)` for a nonnegative exponent. -/
def powMod (b : ℤ) (e : ℕ) (m : ℤ) : ℤ := (b ^ e).fmod m

/-- Guarded body of `legendre_symbol` (lines 22-27), used where `p > 2` has
already been checked by the caller. -/
def legendre_core (a p : ℤ) : ℤ :=
  let ls := powMod (a.fmod p) ((p - 1).fdiv 2).toNat p
  if ls ≠ p - 1 then ls else -1

/-- Translation of `legendre_symbol`. -/
def legendre_symbol (a p : ℤ) : Except PyErr ℤ :=
  if p ≤ 2 then .error .valueError else .ok (legendre_core a p)

/-- Factorisation loop of `tonelli_shanks` (lines 43-47): writes its input as
`Q * 2 ^ S` with `Q` odd, returning `(Q, S)`. -/
def factor2 (n : ℕ) : ℕ × ℕ :=
  if h : n ≠ 0 ∧ n % 2 = 0 then
    let r := factor2 (n / 2)
    (r.1, r.2 + 1)
  else (n, 0)
termination_by n
decreasing_by exact Nat.div_lt_self (Nat.pos_of_ne_zero h.1) (by omega)

/-- Quadratic non-residue search of `tonelli_shanks` (lines 50-53): the first
`z` in `[2, p)` with Legendre symbol `-1`, or `none` (Python's
`RuntimeError` case). -/
def find_nonresidue (p : ℤ) : Option ℤ :=
  ((List.range' 2 (p - 2).toNat).map (fun k : ℕ => (k : ℤ))).find?
    (fun z => decide (legendre_core z p = -1))

/-- Inner order-finding loop of `tonelli_shanks` (lines 63-70): starting from
`temp`, repeatedly square mod `p`, testing indices `j, j+1, ..., j+k-1`;
returns the first index whose squared value is 1 (Python's `i`), or `none`
(Python's `i == 0`). -/
def findIAux (p : ℤ) : ℤ → ℕ → ℕ → Option ℕ
  | _, _, 0 => none
  | temp, j, k + 1 =>
    let temp2 := powMod temp 2 p
    if temp2 = 1 then some j else findIAux p temp2 (j + 1) k

theorem findIAux_some_bounds {p : ℤ} :
    ∀ {temp : ℤ} {j k i : ℕ}, findIAux p temp j k = some i → j ≤ i ∧ i < j + k := by
  intro temp j k
  induction k generalizing temp j with
  | zero => intro i h; simp [findIAux] at h
  | succ k ih =>
    intro i h
    simp only [findIAux] at h
    by_cases h1 : powMod temp 2 p = 1
    · rw [if_pos h1] at h
      have h2 := Option.some.inj h
      omega
    · rw [if_neg h1] at h
      have := ih h
      omega

/-- Main loop of `tonelli_shanks` (lines 62-82), returning the final `R`. -/
def tsLoop (p : ℤ) (M : ℕ) (c t R : ℤ) : ℤ :=
  if t = 1 then R
  else
    match h : findIAux p t 1 (M - 1) with
    | none => R
    | some i =>
      let b := powMod c (2 ^ (M - i - 1)) p
      let c2 := powMod b 2 p
      tsLoop p i c2 ((t * c2).fmod p) ((R * b).fmod p)
termination_by M
decreasing_by
  have hb := findIAux_some_bounds h
  omega

/-- Python `sorted(list(set([u, v])))` for two integers. -/
def sortedPair (u v : ℤ) : List ℤ :=
  if u = v then [u] else if u < v then [u, v] else [v, u]

/-- Translation of `tonelli_shanks` (lines 30-85); the Python locals
`n`, `x`, `Q`, `S` and `R` are inlined (they are pure values). -/
def tonelli_shanks (n p : ℤ) : Except PyErr (List ℤ) :=
  if p ≤ 2 then .error .valueError
  else if n.fmod p = 0 then .ok [0]
  else if legendre_core (n.fmod p) p ≠ 1 then .ok []
  else if p.fmod 4 = 3 then
    .ok (sortedPair (powMod (n.fmod p) ((p + 1).fdiv 4).toNat p)
      (p - powMod (n.fmod p) ((p + 1).fdiv 4).toNat p))
  else
    match find_nonresidue p with
    | none => .error .runtimeError
    | some z =>
      .ok (sortedPair
        (tsLoop p (factor2 (p - 1).toNat).2 (powMod z (factor2 (p - 1).toNat).1 p)
          (powMod (n.fmod p) (factor2 (p - 1).toNat).1 p)
          (powMod (n.fmod p) (((factor2 (p - 1).toNat).1 + 1) / 2) p))
        (p - tsLoop p (factor2 (p - 1).toNat).2 (powMod z (factor2 (p - 1).toNat).1 p)
          (powMod (n.fmod p) (factor2 (p - 1).toNat).1 p)
          (powMod (n.fmod p) (((factor2 (p - 1).toNat).1 + 1) / 2) p)))

/-- Model of the `Point` class state (lines 89-105): optional coordinates
plus the curve parameters `a`, `b`, `p`. -/
structure Point where
  x : Option ℤ
  y : Option ℤ
  a : ℤ
  b : ℤ
  p : ℤ
deriving DecidableEq, Repr

/-- Translation of `Point.is_on_curve` (lines 107-114). -/
def is_on_curve (x y : Option ℤ) (a b p : ℤ) : Bool :=
  match x, y with
  | none, none => true
  | some xv, some yv => decide (powMod yv 2 p = (powMod xv 3 p + a * xv + b).fmod p)
  | _, _ => false

/-- Translation of the `Point` constructor (lines 92-105): the identity is
accepted unconditionally; otherwise `p > 2` and the curve equation are
required (`ValueError` on failure). -/
def mkPoint (x y : Option ℤ) (a b p : ℤ) : Except PyErr Point :=
  if x = none ∧ y = none then .ok ⟨x, y, a, b, p⟩
  else if p ≤ 2 then .error .valueError
  else if is_on_curve x y a b p then .ok ⟨x, y, a, b, p⟩ else .error .valueError

/-- Translation of `Point.eq` (`Point.__eq__`, lines 116-123); the `none`
case models comparison against the Python value `None`. -/
def pointEqPy (P : Point) (other : Option Point) : Bool :=
  match other with
  | none => decide (P.x = none ∧ P.y = none)
  | some Q => decide (P.x = Q.x ∧ P.y = Q.y ∧ P.a = Q.a ∧ P.b = Q.b ∧ P.p = Q.p)

/-- Translation of `Point.add` (`Point.__add__`, lines 131-168). -/
def pointAdd (P Q : Point) : Except PyErr Point :=
  if P.p ≠ Q.p ∨ P.a ≠ Q.a ∨ P.b ≠ Q.b then .error .valueError
  else if P.x = none then .ok Q
  else if Q.x = none then .ok P
  else
    match P.x, P.y, Q.x, Q.y with
    | some x1, some y1, some x2, some y2 =>
      if x1 = x2 ∧ y1 = (-y2).fmod P.p then .ok ⟨none, none, P.a, P.b, P.p⟩
      else if (x1 = x2 ∧ y1 = y2) ∧ y1 = 0 then .ok ⟨none, none, P.a, P.b, P.p⟩
      else
        let nd : ℤ × ℤ :=
          if x1 = x2 ∧ y1 = y2 then
            ((3 * powMod x1 2 P.p + P.a).fmod P.p, (2 * y1).fmod P.p)
          else
            ((y2 - y1).fmod P.p, (x2 - x1).fmod P.p)
        (mod_inv nd.2 P.p).bind (fun inv =>
          let l := (nd.1 * inv).fmod P.p
          let x3 := (powMod l 2 P.p - x1 - x2).fmod P.p
          let y3 := (l * (x1 - x3) - y1).fmod P.p
          mkPoint (some x3) (some y3) P.a P.b P.p)
    | _, _, _, _ => .error .typeError

/-- Double-and-add loop of `Point.rmul` (`Point.__rmul__`, lines 179-187). -/
def rmulLoop : ℕ → Point → Point → Except PyErr Point
  | 0, result, _ => .ok result
  | k + 1, result, current => do
    let r ← if (k + 1) % 2 = 1 then pointAdd result current else pure result
    let c ← pointAdd current current
    rmulLoop ((k + 1) / 2) r c
termination_by k => k
decreasing_by exact Nat.div_lt_self (Nat.succ_pos k) one_lt_two

/-- Translation of `Point.rmul` (`Point.__rmul__`, lines 170-187). -/
def rmul (k : ℤ) (P : Point) : Except PyErr Point :=
  if k < 0 then .error .valueError
  else
    let O : Point := ⟨none, none, P.a, P.b, P.p⟩
    if k = 0 then .ok O
    else if P.x = none then .ok O
    else rmulLoop k.toNat O P

/-- Iteration loop of `find_order_brute_force` (lines 210-227); the fuel
counts the iterations permitted by `max_iterations`. -/
def orderLoop (G O : Point) : ℕ → Point → ℕ → Except PyErr (Option ℕ)
  | 0, _, _ => .ok none
  | fuel + 1, current, order => do
    let next ← pointAdd current G
    if pointEqPy next (some O) then .ok (some (order + 1))
    else orderLoop G O fuel next (order + 1)

/-- Translation of `find_order_brute_force` (lines 196-231), dropping the
wall-clock timing: `some n` is a found order, `none` the iteration-cap
outcome. -/
def find_order_brute_force (G : Point) : Except PyErr (Option ℕ) :=
  if G.x = none then .ok (some 1)
  else
    let O : Point := ⟨none, none, G.a, G.b, G.p⟩
    orderLoop G O (2 * G.p + 2).toNat G 1

/-- The `m`-fold repeated sum `G + G + ... + G` by successive `pointAdd`,
matching the accumulator of `find_order_brute_force` after `m - 1`
additions. -/
def iterAdd (G : Point) : ℕ → Except PyErr Point
  | 0 => .ok ⟨none, none, G.a, G.b, G.p⟩
  | m + 1 => (iterAdd G m).bind (fun c => pointAdd c G)

/-- Root-emission inner loop of `find_points_on_curve` (lines 271-277):
appends `(x, y)` pairs one at a time, the flag recording Python's early
`return` once `count` reaches `max_total_points`. -/
def emitRoots (x maxT : ℤ) : List ℤ → List ℤ → List ℤ → ℕ → List ℤ × List ℤ × ℕ × Bool
  | [], xs, ys, count => (xs, ys, count, false)
  | r :: rest, xs, ys, count =>
    if (count : ℤ) + 1 ≥ maxT then (xs ++ [x], ys ++ [r], count + 1, true)
    else emitRoots x maxT rest (xs ++ [x]) (ys ++ [r]) (count + 1)

/-- Outer loop of `find_points_on_curve` (lines 267-283); `tonelli_shanks`
errors are swallowed by the Python `try`/`except` and the loop continues. -/
def fpLoop (a b p maxT : ℤ) : List ℤ → List ℤ → List ℤ → ℕ → List ℤ × List ℤ
  | [], xs, ys, _ => (xs, ys)
  | x :: rest, xs, ys, count =>
    match tonelli_shanks ((powMod x 3 p + a * x + b).fmod p) p with
    | .error _ => fpLoop a b p maxT rest xs ys count
    | .ok roots =>
      match emitRoots x maxT roots xs ys count with
      | (xs2, ys2, count2, stop) =>
        if stop then (xs2, ys2) else fpLoop a b p maxT rest xs2 ys2 count2

/-- Translation of `find_points_on_curve` (lines 252-285). -/
def find_points_on_curve (a b p x_limit maxT : ℤ) : List ℤ × List ℤ :=
  if p ≤ 2 then ([], [])
  else fpLoop a b p maxT ((List.range x_limit.toNat).map (fun k : ℕ => (k : ℤ))) [] [] 0

/-! ### Arithmetic facts about floored division and modulus -/

theorem fmod_neg_bounds (b : ℤ) : ∀ {a : ℤ}, a < 0 → a < b.fmod a ∧ b.fmod a ≤ 0 := by
  intro a ha
  match a, b with
  | Int.ofNat n, _ => exact absurd ha (not_lt.mpr (Int.ofNat_nonneg n))
  | Int.negSucc n, Int.ofNat 0 =>
    show Int.negSucc n < Int.fmod 0 (Int.negSucc n) ∧ Int.fmod 0 (Int.negSucc n) ≤ 0
    rw [Int.zero_fmod, Int.negSucc_eq]
    omega
  | Int.negSucc n, Int.ofNat (m + 1) =>
    show Int.negSucc n < Int.subNatNat (m % (n + 1)) n ∧ Int.subNatNat (m % (n + 1)) n ≤ 0
    rw [Int.subNatNat_eq_coe, Int.negSucc_eq]
    have h1 : m % (n + 1) < n + 1 := Nat.mod_lt _ (by omega)
    omega
  | Int.negSucc n, Int.negSucc m =>
    show Int.negSucc n < -(Int.ofNat ((m + 1) % (n + 1))) ∧ -(Int.ofNat ((m + 1) % (n + 1))) ≤ 0
    rw [Int.negSucc_eq, Int.ofNat_eq_natCast]
    have h1 : (m + 1) % (n + 1) < n + 1 := Nat.mod_lt _ (by omega)
    omega

theorem natAbs_fmod_lt (b : ℤ) {a : ℤ} (ha : a ≠ 0) : (b.fmod a).natAbs < a.natAbs := by
  rcases lt_trichotomy a 0 with h | h | h
  · have := fmod_neg_bounds b h
    omega
  · exact absurd h ha
  · have h1 := Int.fmod_nonneg' b h
    have h2 := Int.fmod_lt_of_pos b h
    omega

theorem egcdF_fuel_irrel :
    ∀ (F1 F2 : ℕ) (a b : ℤ), a.natAbs < F1 → a.natAbs < F2 → egcdF F1 a b = egcdF F2 a b := by
  intro F1
  induction F1 with
  | zero => intro F2 a b h1 h2; omega
  | succ F ih =>
    intro F2 a b h1 h2
    match F2, h2 with
    | F2 + 1, h2 =>
      simp only [egcdF]
      by_cases ha : a = 0
      · rw [if_pos ha, if_pos ha]
      · rw [if_neg ha, if_neg ha]
        have hlt := natAbs_fmod_lt b ha
        rw [ih F2 (b.fmod a) a (by omega) (by omega)]

/-- The recursion equation of the Python `extended_gcd`. -/
theorem extended_gcd_eq (a b : ℤ) : extended_gcd a b =
    if a = 0 then (b, 0, 1)
    else
      let r := extended_gcd (b.fmod a) a
      (r.1, r.2.2 - b.fdiv a * r.2.1, r.2.1) := by
  show egcdF (a.natAbs + 1) a b = _
  simp only [egcdF]
  by_cases ha : a = 0
  · rw [if_pos ha, if_pos ha]
  · rw [if_neg ha, if_neg ha]
    have hlt := natAbs_fmod_lt b ha
    rw [egcdF_fuel_irrel a.natAbs ((b.fmod a).natAbs + 1) (b.fmod a) a (by omega) (by omega)]
    rfl

theorem gcd_fmod_left (a b : ℤ) : Int.gcd (b.fmod a) a = Int.gcd a b := by
  have hdef : b.fmod a = b - a * b.fdiv a := Int.fmod_def b a
  have hb : b = b.fmod a + a * b.fdiv a := by linarith
  apply Nat.dvd_antisymm
  · rw [← Int.natCast_dvd_natCast]
    refine Int.dvd_gcd Int.gcd_dvd_right ?_
    calc (Int.gcd (b.fmod a) a : ℤ) ∣ b.fmod a + a * b.fdiv a :=
          dvd_add Int.gcd_dvd_left (Int.gcd_dvd_right.mul_right _)
    _ = b := hb.symm
  · rw [← Int.natCast_dvd_natCast]
    refine Int.dvd_gcd ?_ Int.gcd_dvd_left
    rw [hdef]
    exact dvd_sub Int.gcd_dvd_right (Int.gcd_dvd_left.mul_right _)

/-- Full characterisation of `extended_gcd`: Bezout identity, absolute value,
and the sign behaviour of the first component. -/
theorem extended_gcd_spec_aux :
    ∀ (N : ℕ) (a b : ℤ), a.natAbs ≤ N →
      (extended_gcd a b).1 = a * (extended_gcd a b).2.1 + b * (extended_gcd a b).2.2 ∧
      (extended_gcd a b).1.natAbs = Int.gcd a b ∧
      (0 < a → 0 < (extended_gcd a b).1) ∧
      (a < 0 → (extended_gcd a b).1 < 0) ∧
      (a = 0 → (extended_gcd a b).1 = b) := by
  intro N
  induction N with
  | zero =>
    intro a b hN
    have ha : a = 0 := by omega
    rw [extended_gcd_eq, if_pos ha]
    subst ha
    refine ⟨by ring, ?_, by omega, by omega, fun _ => rfl⟩
    simp [Int.gcd]
  | succ N ih =>
    intro a b hN
    by_cases ha : a = 0
    · rw [extended_gcd_eq, if_pos ha]
      subst ha
      refine ⟨by ring, ?_, by omega, by omega, fun _ => rfl⟩
      simp [Int.gcd]
    · rw [extended_gcd_eq, if_neg ha]
      have hlt := natAbs_fmod_lt b ha
      obtain ⟨ih1, ih2, ih3, ih4, ih5⟩ := ih (b.fmod a) a (by omega)
      have hdef : b.fmod a = b - a * b.fdiv a := Int.fmod_def b a
      refine ⟨?_, ?_, ?_, ?_, fun h => absurd h ha⟩
      · simp only
        calc (extended_gcd (b.fmod a) a).1
            = b.fmod a * (extended_gcd (b.fmod a) a).2.1
              + a * (extended_gcd (b.fmod a) a).2.2 := ih1
        _ = a * ((extended_gcd (b.fmod a) a).2.2
              - b.fdiv a * (extended_gcd (b.fmod a) a).2.1)
              + b * (extended_gcd (b.fmod a) a).2.1 := by rw [hdef]; ring
      · simp only
        rw [ih2, gcd_fmod_left]
      · intro hpos
        simp only
        rcases lt_or_eq_of_le (Int.fmod_nonneg' b hpos) with h0 | h0
        · exact ih3 h0
        · rw [ih5 h0.symm] at *
          exact hpos
      · intro hneg
        simp only
        have hb := fmod_neg_bounds b hneg
        rcases lt_or_eq_of_le hb.2 with h0 | h0
        · exact ih4 h0
        · rw [ih5 h0] at *
          exact hneg

theorem extended_gcd_spec (a b : ℤ) :
    (extended_gcd a b).1 = a * (extended_gcd a b).2.1 + b * (extended_gcd a b).2.2 ∧
    (extended_gcd a b).1.natAbs = Int.gcd a b ∧
    (0 < a → 0 < (extended_gcd a b).1) ∧
    (a < 0 → (extended_gcd a b).1 < 0) ∧
    (a = 0 → (extended_gcd a b).1 = b) :=
  extended_gcd_spec_aux a.natAbs a b le_rfl

/-- The first component of `extended_gcd` is 1 exactly on this domain. -/
theorem extended_gcd_fst_eq_one_iff (a m : ℤ) :
    (extended_gcd a m).1 = 1 ↔ (0 < a ∧ Int.gcd a m = 1) ∨ (a = 0 ∧ m = 1) := by
  obtain ⟨_, h2, h3, h4, h5⟩ := extended_gcd_spec a m
  constructor
  · intro h1
    rcases lt_trichotomy a 0 with ha | ha | ha
    · have := h4 ha
      omega
    · right
      have := h5 ha
      exact ⟨ha, by omega⟩
    · left
      rw [h1] at h2
      exact ⟨ha, by simpa using h2.symm⟩
  · rintro (⟨ha, hg⟩ | ⟨ha, hm⟩)
    · have := h3 ha
      rw [hg] at h2
      omega
    · rw [h5 ha, hm]

theorem mod_inv_ok_char (a m : ℤ) :
    (∃ r, mod_inv a m = .ok r) ↔
      (((0 < a ∧ Int.gcd a m = 1) ∨ (a = 0 ∧ m = 1)) ∧ m ≠ 0) := by
  rw [← extended_gcd_fst_eq_one_iff]
  unfold mod_inv
  by_cases h1 : (extended_gcd a m).1 = 1
  · by_cases hm : m = 0
    · rw [if_neg (by simp [h1]), if_pos hm]
      simp [h1, hm]
    · rw [if_neg (by simp [h1]), if_neg hm]
      simp [h1, hm]
  · rw [if_pos (by simp [h1])]
    simp [h1]

theorem mod_inv_ok_value {a m r : ℤ} (hm : 0 < m) (h : mod_inv a m = .ok r) :
    0 ≤ r ∧ r < m ∧ a * r ≡ 1 [ZMOD m] := by
  unfold mod_inv at h
  by_cases h1 : (extended_gcd a m).1 = 1
  · rw [if_neg (by simpa using h1), if_neg (by omega)] at h
    obtain rfl : (extended_gcd a m).2.1.fmod m = r := by
      simpa using h
    refine ⟨Int.fmod_nonneg' _ hm, Int.fmod_lt_of_pos _ hm, ?_⟩
    obtain ⟨hbez, _, _, _, _⟩ := extended_gcd_spec a m
    rw [h1] at hbez
    have hcong : (extended_gcd a m).2.1.fmod m ≡ (extended_gcd a m).2.1 [ZMOD m] := by
      rw [Int.fmod_eq_emod _ (by omega)]
      exact Int.emod_emod_of_dvd _ dvd_rfl
    calc a * (extended_gcd a m).2.1.fmod m
        ≡ a * (extended_gcd a m).2.1 [ZMOD m] := hcong.mul_left a
    _ ≡ a * (extended_gcd a m).2.1 + m * (extended_gcd a m).2.2 [ZMOD m] :=
        Int.modEq_iff_dvd.mpr ⟨(extended_gcd a m).2.2, by ring⟩
    _ = 1 := by linarith
  · rw [if_pos (by simpa using h1)] at h
    exact absurd h (by simp)

/-! ### Claims C4, C6, C8, C9, C10 -/

instance exceptDecEq {ε α : Type} [DecidableEq ε] [DecidableEq α] : DecidableEq (Except ε α)
  | .error e1, .error e2 =>
    if h : e1 = e2 then .isTrue (by rw [h]) else .isFalse (by simp [h])
  | .error _, .ok _ => .isFalse (by simp)
  | .ok _, .error _ => .isFalse (by simp)
  | .ok a1, .ok a2 =>
    if h : a1 = a2 then .isTrue (by rw [h]) else .isFalse (by simp [h])

/-- C8, counterexample: at `a = 0`, `b = -5` the first component of
`extended_gcd` is `-5` while `gcd(0, -5) = 5`, so the claim that
`extended_gcd` returns `g = gcd(a, b)` together with the Bezout identity
fails at this input. -/
theorem claim_C8_counterexample :
    ¬ ((extended_gcd 0 (-5)).1 = (Int.gcd 0 (-5) : ℤ) ∧
       (extended_gcd 0 (-5)).1 =
         0 * (extended_gcd 0 (-5)).2.1 + (-5) * (extended_gcd 0 (-5)).2.2) := by
  decide

/-- C8, amended: `extended_gcd a b` returns `(g, x, y)` with
`g = a*x + b*y` and `|g| = gcd(a, b)` (the first component can be the
negative of the gcd, e.g. when `a < 0`, or when `a = 0` and `b < 0`). -/
theorem claim_C8_theorem (a b : ℤ) :
    (extended_gcd a b).1 = a * (extended_gcd a b).2.1 + b * (extended_gcd a b).2.2 ∧
    (extended_gcd a b).1.natAbs = Int.gcd a b :=
  ⟨(extended_gcd_spec a b).1, (extended_gcd_spec a b).2.1⟩

/-- C6, counterexample: `mod_inv (-3) 5` raises the no-inverse `ValueError`
even though `gcd(-3, 5) = 1`, refuting the claimed equivalence between
raising and `gcd(a, m) ≠ 1`. -/
theorem claim_C6_counterexample :
    mod_inv (-3) 5 = .error .valueError ∧ Int.gcd (-3) 5 = 1 := by
  decide

/-- C6, amended: `mod_inv a m` succeeds iff the first component of the
extended gcd is 1 and `m ≠ 0`, i.e. iff `a > 0` and `gcd(a, m) = 1`, or
`a = 0` and `m = 1`, always with `m ≠ 0` (so it also raises for every
negative `a` coprime to `m`, and raises `ZeroDivisionError` at
`a = 1, m = 0`); on success with `m > 0` the result `r` satisfies
`0 ≤ r < m` and `a * r ≡ 1 (mod m)`. -/
theorem claim_C6_theorem (a m : ℤ) :
    ((∃ r, mod_inv a m = .ok r) ↔
      (((0 < a ∧ Int.gcd a m = 1) ∨ (a = 0 ∧ m = 1)) ∧ m ≠ 0)) ∧
    (∀ r, 0 < m → mod_inv a m = .ok r → 0 ≤ r ∧ r < m ∧ a * r ≡ 1 [ZMOD m]) :=
  ⟨mod_inv_ok_char a m, fun _ hm h => mod_inv_ok_value hm h⟩

/-- C6, witness: `mod_inv 3 5` succeeds, and its value 2 is in range with
`3 * 2 ≡ 1 (mod 5)`. -/
theorem claim_C6_witness :
    (∃ r, mod_inv 3 5 = .ok r) ∧
      (0 ≤ (2 : ℤ) ∧ (2 : ℤ) < 5 ∧ (3 : ℤ) * 2 ≡ 1 [ZMOD 5]) :=
  ⟨(claim_C6_theorem 3 5).1.mpr (by decide),
    (claim_C6_theorem 3 5).2 2 (by decide) (by decide)⟩

/-- C4, counterexample: two identity points carrying different curve
parameters are unequal under `Point.eq`, refuting the claim that two
identity points are equal regardless of the curve parameters they carry. -/
theorem claim_C4_counterexample :
    ((Point.mk none none 1 1 5).x = none ∧ (Point.mk none none 1 1 5).y = none) ∧
    ((Point.mk none none 2 3 7).x = none ∧ (Point.mk none none 2 3 7).y = none) ∧
    pointEqPy ⟨none, none, 1, 1, 5⟩ (some ⟨none, none, 2, 3, 7⟩) = false := by
  decide

/-- C4, amended: `Point.eq` between two points holds iff all five of
`x, y, a, b, p` match exactly, i.e. iff the two point values coincide;
in particular identity points on different curves are not equal. -/
theorem claim_C4_theorem (P Q : Point) : pointEqPy P (some Q) = true ↔ P = Q := by
  cases P
  cases Q
  simp [pointEqPy, Point.mk.injEq]

/-- C9: comparing a point against Python `None` yields `True` iff both
coordinates are absent; the comparison is a total boolean function of the
five fields, so it cannot raise for any constructed point. -/
theorem claim_C9_theorem (P : Point) :
    pointEqPy P none = true ↔ (P.x = none ∧ P.y = none) := by
  simp [pointEqPy]

/-- C10: for `p ≤ 2`, `find_points_on_curve` returns two empty lists
instead of raising, for every `a`, `b`, `x_limit` and cap. -/
theorem claim_C10_theorem (a b p x_limit maxT : ℤ) (hp : p ≤ 2) :
    find_points_on_curve a b p x_limit maxT = ([], []) := by
  unfold find_points_on_curve
  rw [if_pos hp]

/-- C10, witness: concrete instance at `p = 2`. -/
theorem claim_C10_witness : find_points_on_curve 4 7 2 100 50 = ([], []) :=
  claim_C10_theorem 4 7 2 100 50 (by decide)

/-! ### Bridging floored arithmetic over ℤ with `ZMod` -/

theorem fmod_cast_zmod (x : ℤ) (q : ℕ) : ((x.fmod (q : ℤ) : ℤ) : ZMod q) = (x : ZMod q) := by
  rw [Int.fmod_eq_emod _ (by exact_mod_cast Nat.zero_le q)]
  rw [ZMod.intCast_eq_intCast_iff']
  exact Int.emod_emod_of_dvd _ dvd_rfl

theorem fmod_range (x : ℤ) {q : ℕ} (hq : 0 < q) :
    0 ≤ x.fmod (q : ℤ) ∧ x.fmod (q : ℤ) < q :=
  ⟨Int.fmod_nonneg' x (by exact_mod_cast hq), Int.fmod_lt_of_pos x (by exact_mod_cast hq)⟩

theorem cast_inj_of_range {q : ℕ} {u v : ℤ} (hu0 : 0 ≤ u) (hu1 : u < q) (hv0 : 0 ≤ v)
    (hv1 : v < q) (h : (u : ZMod q) = (v : ZMod q)) : u = v := by
  rw [ZMod.intCast_eq_intCast_iff'] at h
  rwa [Int.emod_eq_of_lt hu0 hu1, Int.emod_eq_of_lt hv0 hv1] at h

theorem powMod_cast (b : ℤ) (e : ℕ) (q : ℕ) :
    ((powMod b e (q : ℤ) : ℤ) : ZMod q) = (b : ZMod q) ^ e := by
  unfold powMod
  rw [fmod_cast_zmod]
  push_cast
  ring

theorem powMod_range (b : ℤ) (e : ℕ) {q : ℕ} (hq : 0 < q) :
    0 ≤ powMod b e (q : ℤ) ∧ powMod b e (q : ℤ) < q :=
  fmod_range _ hq

theorem powMod_eq_one_iff {q : ℕ} (h2 : 2 ≤ q) (b : ℤ) (e : ℕ) :
    powMod b e (q : ℤ) = 1 ↔ (b : ZMod q) ^ e = 1 := by
  constructor
  · intro h
    have := powMod_cast b e q
    rw [h] at this
    simpa using this.symm
  · intro h
    have hr := powMod_range b e (by omega : 0 < q)
    refine cast_inj_of_range hr.1 hr.2 (by omega) (by exact_mod_cast h2) ?_
    rw [powMod_cast, h]
    simp

theorem legendre_exp {q : ℕ} (h1 : 1 ≤ q) : (((q : ℤ) - 1).fdiv 2).toNat = (q - 1) / 2 := by
  rw [Int.fdiv_eq_ediv _ (by omega)]
  omega

theorem legendre_core_eq_one_iff {q : ℕ} (h3 : 3 ≤ q) (a : ℤ) :
    legendre_core a (q : ℤ) = 1 ↔ (a : ZMod q) ^ ((q - 1) / 2) = 1 := by
  have hq0 : 0 < q := by omega
  unfold legendre_core
  rw [legendre_exp (by omega)]
  set ls := powMod (a.fmod (q : ℤ)) ((q - 1) / 2) (q : ℤ) with hls_def
  have hr : 0 ≤ ls ∧ ls < q := powMod_range _ _ hq0
  have hcast : ((ls : ℤ) : ZMod q) = (a : ZMod q) ^ ((q - 1) / 2) := by
    rw [hls_def, powMod_cast, fmod_cast_zmod]
  constructor
  · intro h
    by_cases hb : ls = (q : ℤ) - 1
    · rw [if_neg (by simp [hb])] at h
      exact absurd h (by omega)
    · rw [if_pos (by simpa using hb)] at h
      rw [← hcast, h]
      simp
  · intro h
    have hls1 : ls = 1 := by
      refine cast_inj_of_range hr.1 hr.2 (by omega) (by omega) ?_
      rw [hcast, h]
      simp
    rw [if_pos (show ls ≠ (q : ℤ) - 1 by omega)]
    exact hls1

theorem legendre_core_eq_negone_iff {q : ℕ} (h3 : 3 ≤ q) (a : ℤ) :
    legendre_core a (q : ℤ) = -1 ↔ (a : ZMod q) ^ ((q - 1) / 2) = -1 := by
  have hq0 : 0 < q := by omega
  unfold legendre_core
  rw [legendre_exp (by omega)]
  set ls := powMod (a.fmod (q : ℤ)) ((q - 1) / 2) (q : ℤ) with hls_def
  have hr : 0 ≤ ls ∧ ls < q := powMod_range _ _ hq0
  have hcast : ((ls : ℤ) : ZMod q) = (a : ZMod q) ^ ((q - 1) / 2) := by
    rw [hls_def, powMod_cast, fmod_cast_zmod]
  have hq1 : (((q : ℤ) - 1 : ℤ) : ZMod q) = -1 := by
    push_cast
    rw [ZMod.natCast_self]
    ring
  constructor
  · intro h
    by_cases hb : ls = (q : ℤ) - 1
    · rw [← hcast, hb, hq1]
    · rw [if_pos (by simpa using hb)] at h
      exact absurd h (by omega)
  · intro h
    have hlsq : ls = (q : ℤ) - 1 := by
      refine cast_inj_of_range hr.1 hr.2 (by omega) (by omega) ?_
      rw [hcast, h, hq1]
    rw [if_neg (by simp [hlsq])]

theorem powMod_sq {q : ℕ} (hq : 0 < q) (t0 : ℤ) (j : ℕ) :
    powMod (powMod t0 (2 ^ j) (q : ℤ)) 2 (q : ℤ) = powMod t0 (2 ^ (j + 1)) (q : ℤ) := by
  have h1 := powMod_range (powMod t0 (2 ^ j) (q : ℤ)) 2 hq
  have h2 := powMod_range t0 (2 ^ (j + 1)) hq
  refine cast_inj_of_range h1.1 h1.2 h2.1 h2.2 ?_
  rw [powMod_cast, powMod_cast, powMod_cast, ← pow_mul, ← pow_succ]

theorem findIAux_none_spec {q : ℕ} (hq : 0 < q) (t0 : ℤ) :
    ∀ (k j : ℕ), findIAux (q : ℤ) (powMod t0 (2 ^ j) (q : ℤ)) (j + 1) k = none →
      ∀ d, j + 1 ≤ d → d < j + 1 + k → powMod t0 (2 ^ d) (q : ℤ) ≠ 1 := by
  intro k
  induction k with
  | zero => intro j _ d h1 h2; omega
  | succ k ih =>
    intro j h d h1 h2
    simp only [findIAux, powMod_sq hq t0 j] at h
    by_cases hx : powMod t0 (2 ^ (j + 1)) (q : ℤ) = 1
    · rw [if_pos hx] at h
      exact absurd h (by simp)
    · rw [if_neg hx] at h
      rcases Nat.eq_or_lt_of_le h1 with h3 | h3
      · rw [← h3]
        exact hx
      · exact ih (j + 1) h d h3 (by omega)

theorem findIAux_some_spec {q : ℕ} (hq : 0 < q) (t0 : ℤ) :
    ∀ (k j i : ℕ), findIAux (q : ℤ) (powMod t0 (2 ^ j) (q : ℤ)) (j + 1) k = some i →
      j + 1 ≤ i ∧ i < j + 1 + k ∧ powMod t0 (2 ^ i) (q : ℤ) = 1 ∧
        ∀ d, j + 1 ≤ d → d < i → powMod t0 (2 ^ d) (q : ℤ) ≠ 1 := by
  intro k
  induction k with
  | zero => intro j i h; simp [findIAux] at h
  | succ k ih =>
    intro j i h
    simp only [findIAux, powMod_sq hq t0 j] at h
    by_cases hx : powMod t0 (2 ^ (j + 1)) (q : ℤ) = 1
    · rw [if_pos hx] at h
      have hi := Option.some.inj h
      subst hi
      exact ⟨le_rfl, by omega, hx, fun d hd1 hd2 => by omega⟩
    · rw [if_neg hx] at h
      obtain ⟨h1, h2, h3, h4⟩ := ih (j + 1) i h
      refine ⟨by omega, by omega, h3, ?_⟩
      intro d hd1 hd2
      rcases Nat.eq_or_lt_of_le hd1 with h5 | h5
      · rw [← h5]
        exact hx
      · exact h4 d h5 hd2

theorem zmod_pow_pow {q : ℕ} (x : ZMod q) (a b : ℕ) :
    (x ^ 2 ^ a) ^ 2 ^ b = x ^ 2 ^ (a + b) := by
  rw [← pow_mul, ← pow_add]

/-- Invariant proof for the main Tonelli-Shanks loop: if `R^2 = N * t`,
`t^(2^(M-1)) = 1` and `c^(2^(M-1)) = -1` hold in `ZMod q`, then the loop
returns a square root of `N` in the range `[0, q)`. -/
theorem tsLoop_spec {q : ℕ} [Fact (Nat.Prime q)] (h3 : 3 ≤ q) (N : ZMod q) :
    ∀ (M : ℕ) (c t R : ℤ), 1 ≤ M →
      0 ≤ c → c < q → 0 ≤ t → t < q → 0 ≤ R → R < q →
      (t : ZMod q) ^ 2 ^ (M - 1) = 1 →
      (c : ZMod q) ^ 2 ^ (M - 1) = -1 →
      (R : ZMod q) ^ 2 = N * (t : ZMod q) →
      0 ≤ tsLoop (q : ℤ) M c t R ∧ tsLoop (q : ℤ) M c t R < q ∧
        (tsLoop (q : ℤ) M c t R : ZMod q) ^ 2 = N := by
  have hq0 : 0 < q := by omega
  intro M
  induction M using Nat.strong_induction_on with
  | _ M ih =>
    intro c t R hM hc0 hc1 ht0 ht1 hR0 hR1 htpow hcpow hRkey
    rw [tsLoop]
    by_cases ht : t = 1
    · rw [if_pos ht]
      refine ⟨hR0, hR1, ?_⟩
      rw [hRkey, ht]
      push_cast
      ring
    · rw [if_neg ht]
      have ht_pm : powMod t (2 ^ 0) (q : ℤ) = t := by
        simp [powMod, Int.fmod_eq_of_lt ht0 ht1]
      have hT1 : (t : ZMod q) ≠ 1 := by
        intro hh
        apply ht
        refine cast_inj_of_range ht0 ht1 (by omega) (by omega) ?_
        rw [hh]
        simp
      have hM2 : 2 ≤ M := by
        by_contra hcon
        have hM1 : M = 1 := by omega
        rw [hM1] at htpow
        simp at htpow
        exact hT1 htpow
      have hPM : powMod t (2 ^ (M - 1)) (q : ℤ) = 1 :=
        (powMod_eq_one_iff (by omega) t (2 ^ (M - 1))).mpr htpow
      split
      · -- the break-out branch (Python i == 0) cannot happen for prime q
        rename_i heq
        exfalso
        have heq0 : findIAux (q : ℤ) (powMod t (2 ^ 0) (q : ℤ)) (0 + 1) (M - 1) = none := by
          rw [ht_pm]
          exact heq
        exact findIAux_none_spec hq0 t (M - 1) 0 heq0 (M - 1) (by omega) (by omega) hPM
      · rename_i i heq
        have heq0 : findIAux (q : ℤ) (powMod t (2 ^ 0) (q : ℤ)) (0 + 1) (M - 1) = some i := by
          rw [ht_pm]
          exact heq
        obtain ⟨hi1, hi2, hiP, himin⟩ := findIAux_some_spec hq0 t (M - 1) 0 i heq0
        have hiM : i < M := by omega
        have hTi : (t : ZMod q) ^ 2 ^ i = 1 := by
          have := powMod_cast t (2 ^ i) q
          rw [hiP] at this
          simpa using this.symm
        have h2i : 2 ^ (i - 1) + 2 ^ (i - 1) = 2 ^ i := by
          have hii : i = i - 1 + 1 := by omega
          calc 2 ^ (i - 1) + 2 ^ (i - 1) = 2 ^ (i - 1) * 2 := by ring
          _ = 2 ^ (i - 1 + 1) := (pow_succ 2 (i - 1)).symm
          _ = 2 ^ i := by rw [← hii]
        have h2i' : 2 * 2 ^ (i - 1) = 2 ^ i := by omega
        have hTim : (t : ZMod q) ^ 2 ^ (i - 1) = -1 := by
          have hsq : (t : ZMod q) ^ 2 ^ (i - 1) * (t : ZMod q) ^ 2 ^ (i - 1) = 1 := by
            rw [← pow_add, h2i]
            exact hTi
          rcases mul_self_eq_one_iff.mp hsq with h1 | h1
          · exfalso
            rcases Nat.eq_or_lt_of_le hi1 with hi1' | hi1'
            · rw [← hi1'] at h1
              simp at h1
              exact hT1 h1
            · refine himin (i - 1) (by omega) (by omega) ?_
              refine (powMod_eq_one_iff (by omega) t (2 ^ (i - 1))).mpr h1
          · exact h1
        have hexp : M - i - 1 + i = M - 1 := by omega
        -- the new loop state
        have hBcast : ((powMod c (2 ^ (M - i - 1)) (q : ℤ) : ℤ) : ZMod q)
            = (c : ZMod q) ^ 2 ^ (M - i - 1) := powMod_cast c _ q
        have hBpow : ((powMod c (2 ^ (M - i - 1)) (q : ℤ) : ℤ) : ZMod q) ^ 2 ^ i = -1 := by
          rw [hBcast, zmod_pow_pow, hexp]
          exact hcpow
        have hC2cast : ((powMod (powMod c (2 ^ (M - i - 1)) (q : ℤ)) 2 (q : ℤ) : ℤ) : ZMod q)
            = ((powMod c (2 ^ (M - i - 1)) (q : ℤ) : ℤ) : ZMod q) ^ 2 :=
          powMod_cast _ 2 q
        have hC2pow : ((powMod (powMod c (2 ^ (M - i - 1)) (q : ℤ)) 2 (q : ℤ) : ℤ) : ZMod q)
            ^ 2 ^ (i - 1) = -1 := by
          rw [hC2cast, ← pow_mul, h2i']
          exact hBpow
        have hT2cast : (((t * powMod (powMod c (2 ^ (M - i - 1)) (q : ℤ)) 2 (q : ℤ)).fmod
            (q : ℤ) : ℤ) : ZMod q)
            = (t : ZMod q) * ((powMod (powMod c (2 ^ (M - i - 1)) (q : ℤ)) 2 (q : ℤ) : ℤ)
              : ZMod q) := by
          rw [fmod_cast_zmod]
          push_cast
          ring
        have hR2cast : (((R * powMod c (2 ^ (M - i - 1)) (q : ℤ)).fmod (q : ℤ) : ℤ) : ZMod q)
            = (R : ZMod q) * ((powMod c (2 ^ (M - i - 1)) (q : ℤ) : ℤ) : ZMod q) := by
          rw [fmod_cast_zmod]
          push_cast
          ring
        refine ih i hiM _ _ _ hi1
          (powMod_range _ _ hq0).1 (powMod_range _ _ hq0).2
          (fmod_range _ hq0).1 (fmod_range _ hq0).2
          (fmod_range _ hq0).1 (fmod_range _ hq0).2
          ?_ ?_ ?_
        · rw [hT2cast, mul_pow, hTim, hC2pow]
          ring
        · exact hC2pow
        · rw [hR2cast, hT2cast, mul_pow, hRkey, hC2cast]
          ring

theorem factor2_spec :
    ∀ n : ℕ, n ≠ 0 → (factor2 n).1 % 2 = 1 ∧ (factor2 n).1 * 2 ^ (factor2 n).2 = n := by
  intro n
  induction n using Nat.strong_induction_on with
  | _ n ih =>
    intro hn
    rw [factor2]
    by_cases h : n ≠ 0 ∧ n % 2 = 0
    · rw [dif_pos h]
      have hdiv : n / 2 < n := Nat.div_lt_self (by omega) (by omega)
      have hhalf := ih (n / 2) hdiv (by omega)
      refine ⟨hhalf.1, ?_⟩
      calc (factor2 (n / 2)).1 * 2 ^ ((factor2 (n / 2)).2 + 1)
          = (factor2 (n / 2)).1 * 2 ^ (factor2 (n / 2)).2 * 2 := by ring
      _ = n / 2 * 2 := by rw [hhalf.2]
      _ = n := by omega
    · rw [dif_neg h]
      exact ⟨by omega, by simp⟩

theorem find_nonresidue_some {q : ℕ} [Fact (Nat.Prime q)] (h3 : 3 ≤ q) (h2 : q ≠ 2) :
    ∃ z : ℤ, find_nonresidue (q : ℤ) = some z ∧ 2 ≤ z ∧ z < q ∧
      (z : ZMod q) ^ ((q - 1) / 2) = -1 := by
  haveI : NeZero q := ⟨by omega⟩
  have hodd : q % 2 = 1 := Nat.odd_iff.mp ((Fact.out : q.Prime).odd_of_ne_two h2)
  have hchar : ringChar (ZMod q) ≠ 2 := by
    rw [ZMod.ringChar_zmod_n]
    exact h2
  obtain ⟨a, ha⟩ := FiniteField.exists_nonsquare hchar
  have ha0 : a ≠ 0 := fun h => ha (h ▸ ⟨0, by ring⟩)
  have ha1 : a ≠ 1 := fun h => ha (h ▸ ⟨1, by ring⟩)
  have hcard : Fintype.card (ZMod q) = q := ZMod.card q
  have hq2' : q / 2 = (q - 1) / 2 := by omega
  have hpow : a ^ ((q - 1) / 2) = -1 := by
    have hd := FiniteField.pow_dichotomy hchar ha0
    rw [hcard, hq2'] at hd
    rcases hd with h | h
    · exfalso
      apply ha
      refine (FiniteField.isSquare_iff hchar ha0).mpr ?_
      rw [hcard, hq2']
      exact h
    · exact h
  have haval : ((a.val : ℕ) : ZMod q) = a := ZMod.natCast_rightInverse a
  have hval_lt : a.val < q := ZMod.val_lt a
  have hval0 : a.val ≠ 0 := by
    intro h
    apply ha0
    rw [← haval, h]
    simp
  have hval1 : a.val ≠ 1 := by
    intro h
    apply ha1
    rw [← haval, h]
    simp
  have htn : ((q : ℤ) - 2).toNat = q - 2 := by omega
  have hval2 : 2 ≤ a.val := by omega
  have hmem : ((a.val : ℤ)) ∈ (List.range' 2 ((q : ℤ) - 2).toNat).map (fun k : ℕ => (k : ℤ)) := by
    refine List.mem_map.mpr ⟨a.val, ?_, rfl⟩
    rw [htn, List.mem_range']
    exact ⟨a.val - 2, by omega, by omega⟩
  have hleg : legendre_core ((a.val : ℤ)) (q : ℤ) = -1 := by
    rw [legendre_core_eq_negone_iff h3]
    have hcast : (((a.val : ℤ)) : ZMod q) = a := by
      push_cast
      rw [haval]
    rw [hcast]
    exact hpow
  rcases hfind : find_nonresidue (q : ℤ) with _ | z
  · exfalso
    exact (List.find?_eq_none.mp hfind ((a.val : ℤ)) hmem) (decide_eq_true hleg)
  · have hzP := List.find?_some hfind
    have hzmem := List.mem_of_find?_eq_some hfind
    obtain ⟨u, hu_mem, hu_eq⟩ := List.mem_map.mp hzmem
    rw [htn, List.mem_range'] at hu_mem
    obtain ⟨d, hd, hud⟩ := hu_mem
    have hz2 : 2 ≤ z := by omega
    have hzq : z < q := by omega
    refine ⟨z, rfl, hz2, hzq, ?_⟩
    rw [← legendre_core_eq_negone_iff h3]
    simpa using hzP

theorem sortedPair_props {q : ℕ} (hodd : q % 2 = 1) {x : ℤ} (hx0 : 1 ≤ x)
    (hx1 : x < q) {N : ZMod q} (hX : (x : ZMod q) ^ 2 = N) :
    List.Chain' (fun u v => u < v) (sortedPair x ((q : ℤ) - x)) ∧
    (sortedPair x ((q : ℤ) - x)).length ≤ 2 ∧
    (∀ r ∈ sortedPair x ((q : ℤ) - x), (r : ZMod q) ^ 2 = N) ∧
    (∀ r1 r2, sortedPair x ((q : ℤ) - x) = [r1, r2] → r1 + r2 = (q : ℤ)) := by
  have hxy : x ≠ (q : ℤ) - x := by
    intro h
    omega
  have hyc : (((q : ℤ) - x : ℤ) : ZMod q) = -(x : ZMod q) := by
    push_cast
    rw [ZMod.natCast_self]
    ring
  have hyX : (((q : ℤ) - x : ℤ) : ZMod q) ^ 2 = N := by
    rw [hyc, neg_sq]
    exact hX
  unfold sortedPair
  rw [if_neg hxy]
  by_cases hlt : x < (q : ℤ) - x
  · rw [if_pos hlt]
    refine ⟨List.chain'_pair.mpr hlt, by simp, ?_, ?_⟩
    · intro r hr
      simp only [List.mem_cons, List.not_mem_nil, or_false] at hr
      rcases hr with rfl | rfl
      · exact hX
      · exact hyX
    · intro r1 r2 h
      simp only [List.cons.injEq, and_true] at h
      obtain ⟨rfl, rfl, _⟩ := h
      ring
  · rw [if_neg hlt]
    refine ⟨List.chain'_pair.mpr (by omega), by simp, ?_, ?_⟩
    · intro r hr
      simp only [List.mem_cons, List.not_mem_nil, or_false] at hr
      rcases hr with rfl | rfl
      · exact hyX
      · exact hX
    · intro r1 r2 h
      simp only [List.cons.injEq, and_true] at h
      obtain ⟨rfl, rfl, _⟩ := h
      ring

/-- Full correctness of `tonelli_shanks` for an odd prime modulus: the call
succeeds, the result is a strictly ascending list of at most two residues
whose squares are congruent to `n`, a returned pair sums to `q`, and
`n ≡ 0` returns exactly `[0]`. -/
theorem tonelli_spec (q : ℕ) (hq : Nat.Prime q) (h2 : q ≠ 2) (n : ℤ) :
    ∃ roots, tonelli_shanks n (q : ℤ) = .ok roots ∧
      List.Chain' (fun u v => u < v) roots ∧ roots.length ≤ 2 ∧
      (∀ r ∈ roots, r ^ 2 % (q : ℤ) = n % (q : ℤ)) ∧
      (∀ r1 r2, roots = [r1, r2] → r1 + r2 = (q : ℤ)) ∧
      ((q : ℤ) ∣ n → roots = [0]) := by
  haveI : Fact (Nat.Prime q) := ⟨hq⟩
  haveI : NeZero q := ⟨by have := hq.two_le; omega⟩
  have h3 : 3 ≤ q := by
    have := hq.two_le
    omega
  have hodd : q % 2 = 1 := Nat.odd_iff.mp (hq.odd_of_ne_two h2)
  have hq2 : ¬ ((q : ℤ) ≤ 2) := by omega
  have hdvd_iff : n.fmod (q : ℤ) = 0 ↔ (q : ℤ) ∣ n := by
    rw [Int.fmod_eq_emod _ (by omega)]
    exact ⟨Int.dvd_of_emod_eq_zero, Int.emod_eq_zero_of_dvd⟩
  have hmem_conv : ∀ r : ℤ, (r : ZMod q) ^ 2 = (n : ZMod q) →
      r ^ 2 % (q : ℤ) = n % (q : ℤ) := by
    intro r h
    rw [← ZMod.intCast_eq_intCast_iff']
    push_cast
    exact h
  unfold tonelli_shanks
  rw [if_neg hq2]
  by_cases h0 : n.fmod (q : ℤ) = 0
  · rw [if_pos h0]
    refine ⟨[0], rfl, by simp, by simp, ?_, ?_, fun _ => rfl⟩
    · intro r hr
      simp only [List.mem_singleton] at hr
      subst hr
      have : n % (q : ℤ) = 0 := Int.emod_eq_zero_of_dvd (hdvd_iff.mp h0)
      simp [this]
    · intro r1 r2 h
      exact absurd h (by simp)
  · rw [if_neg h0]
    have hN0 : (n : ZMod q) ≠ 0 := by
      intro h
      exact h0 (hdvd_iff.mpr ((ZMod.intCast_zmod_eq_zero_iff_dvd n q).mp h))
    have hn1cast : ((n.fmod (q : ℤ) : ℤ) : ZMod q) = (n : ZMod q) := fmod_cast_zmod n q
    have hnotdvd : ¬ ((q : ℤ) ∣ n) := fun h => h0 (hdvd_iff.mpr h)
    by_cases hleg : legendre_core (n.fmod (q : ℤ)) (q : ℤ) = 1
    swap
    · rw [if_pos (by simpa using hleg)]
      exact ⟨[], rfl, by simp, by simp, by simp, by simp, fun h => absurd h hnotdvd⟩
    · rw [if_neg (by simpa using hleg)]
      have hEuler : (n : ZMod q) ^ ((q - 1) / 2) = 1 := by
        have := (legendre_core_eq_one_iff h3 (n.fmod (q : ℤ))).mp hleg
        rwa [hn1cast] at this
      by_cases hp4 : (q : ℤ).fmod 4 = 3
      · rw [if_pos hp4]
        have hq4 : q % 4 = 3 := by
          rw [Int.fmod_eq_emod _ (by omega)] at hp4
          omega
        have he34 : (((q : ℤ) + 1).fdiv 4).toNat = (q + 1) / 4 := by
          rw [Int.fdiv_eq_ediv _ (by omega)]
          omega
        rw [he34]
        have hxr := powMod_range (n.fmod (q : ℤ)) ((q + 1) / 4) (by omega : 0 < q)
        have hxc : ((powMod (n.fmod (q : ℤ)) ((q + 1) / 4) (q : ℤ) : ℤ) : ZMod q)
            = (n : ZMod q) ^ ((q + 1) / 4) := by
          rw [powMod_cast, hn1cast]
        have hx2 : ((powMod (n.fmod (q : ℤ)) ((q + 1) / 4) (q : ℤ) : ℤ) : ZMod q) ^ 2
            = (n : ZMod q) := by
          rw [hxc, ← pow_mul]
          have hmul : (q + 1) / 4 * 2 = (q - 1) / 2 + 1 := by omega
          rw [hmul, pow_succ, hEuler, one_mul]
        have hx1 : 1 ≤ powMod (n.fmod (q : ℤ)) ((q + 1) / 4) (q : ℤ) := by
          rcases lt_or_eq_of_le hxr.1 with h | h
          · omega
          · exfalso
            apply hN0
            rw [← hx2, ← h]
            simp
        obtain ⟨hch, hlen, hmem, hpair⟩ := sortedPair_props hodd hx1 hxr.2 hx2
        exact ⟨_, rfl, hch, hlen, fun r hr => hmem_conv r (hmem r hr), hpair,
          fun h => absurd h hnotdvd⟩
      · rw [if_neg hp4]
        obtain ⟨z, hz, hz2, hzq, hzpow⟩ := find_nonresidue_some h3 h2
        rw [hz]
        have hqt : ((q : ℤ) - 1).toNat = q - 1 := by omega
        rw [hqt]
        obtain ⟨hQodd, hQS⟩ := factor2_spec (q - 1) (by omega)
        have hS1 : 1 ≤ (factor2 (q - 1)).2 := by
          by_contra hcon
          have hS0 : (factor2 (q - 1)).2 = 0 := by omega
          rw [hS0, pow_zero, mul_one] at hQS
          omega
        have h2S : (2 : ℕ) ^ (factor2 (q - 1)).2
            = 2 ^ ((factor2 (q - 1)).2 - 1) * 2 := by
          rw [← pow_succ]
          congr 1
          omega
        have hhalf : (factor2 (q - 1)).1 * 2 ^ ((factor2 (q - 1)).2 - 1) = (q - 1) / 2 := by
          have h' : (factor2 (q - 1)).1 * 2 ^ ((factor2 (q - 1)).2 - 1) * 2 = q - 1 := by
            calc (factor2 (q - 1)).1 * 2 ^ ((factor2 (q - 1)).2 - 1) * 2
                = (factor2 (q - 1)).1 * (2 ^ ((factor2 (q - 1)).2 - 1) * 2) := by ring
            _ = (factor2 (q - 1)).1 * 2 ^ (factor2 (q - 1)).2 := by rw [← h2S]
            _ = q - 1 := hQS
          omega
        have hc0 := powMod_range z (factor2 (q - 1)).1 (by omega : 0 < q)
        have ht0 := powMod_range (n.fmod (q : ℤ)) (factor2 (q - 1)).1 (by omega : 0 < q)
        have hR0 := powMod_range (n.fmod (q : ℤ)) (((factor2 (q - 1)).1 + 1) / 2)
          (by omega : 0 < q)
        have htpow : ((powMod (n.fmod (q : ℤ)) (factor2 (q - 1)).1 (q : ℤ) : ℤ) : ZMod q)
            ^ 2 ^ ((factor2 (q - 1)).2 - 1) = 1 := by
          rw [powMod_cast, hn1cast, ← pow_mul, hhalf]
          exact hEuler
        have hcpow : ((powMod z (factor2 (q - 1)).1 (q : ℤ) : ℤ) : ZMod q)
            ^ 2 ^ ((factor2 (q - 1)).2 - 1) = -1 := by
          rw [powMod_cast, ← pow_mul, hhalf]
          exact hzpow
        have hRkey : ((powMod (n.fmod (q : ℤ)) (((factor2 (q - 1)).1 + 1) / 2) (q : ℤ) : ℤ)
            : ZMod q) ^ 2
            = (n : ZMod q)
              * ((powMod (n.fmod (q : ℤ)) (factor2 (q - 1)).1 (q : ℤ) : ℤ) : ZMod q) := by
          rw [powMod_cast, powMod_cast, hn1cast, ← pow_mul]
          have hQ1 : ((factor2 (q - 1)).1 + 1) / 2 * 2 = (factor2 (q - 1)).1 + 1 := by omega
          rw [hQ1, pow_succ]
          ring
        obtain ⟨hRf0, hRf1, hRfsq⟩ := tsLoop_spec h3 (n : ZMod q) (factor2 (q - 1)).2
          (powMod z (factor2 (q - 1)).1 (q : ℤ))
          (powMod (n.fmod (q : ℤ)) (factor2 (q - 1)).1 (q : ℤ))
          (powMod (n.fmod (q : ℤ)) (((factor2 (q - 1)).1 + 1) / 2) (q : ℤ))
          hS1 hc0.1 hc0.2 ht0.1 ht0.2 hR0.1 hR0.2 htpow hcpow hRkey
        have hRfpos : 1 ≤ tsLoop (q : ℤ) (factor2 (q - 1)).2
            (powMod z (factor2 (q - 1)).1 (q : ℤ))
            (powMod (n.fmod (q : ℤ)) (factor2 (q - 1)).1 (q : ℤ))
            (powMod (n.fmod (q : ℤ)) (((factor2 (q - 1)).1 + 1) / 2) (q : ℤ)) := by
          rcases lt_or_eq_of_le hRf0 with h | h
          · omega
          · exfalso
            apply hN0
            rw [← hRfsq, ← h]
            simp
        obtain ⟨hch, hlen, hmem, hpair⟩ := sortedPair_props hodd hRfpos hRf1 hRfsq
        exact ⟨_, rfl, hch, hlen, fun r hr => hmem_conv r (hmem r hr), hpair,
          fun h => absurd h hnotdvd⟩

/-! ### Claim C1 -/

/-- C1: for every odd prime `p` and every integer `n`, `tonelli_shanks n p`
returns (without raising) a duplicate-free ascending list of at most two
roots, every returned root `r` satisfies `r² mod p = n mod p`, a returned
pair `[r1, r2]` satisfies `r1 + r2 = p`, and `n ≡ 0 (mod p)` returns
exactly `[0]`. -/
theorem claim_C1_theorem (q : ℕ) (hq : Nat.Prime q) (h2 : q ≠ 2) (n : ℤ) :
    ∃ roots, tonelli_shanks n (q : ℤ) = .ok roots ∧
      List.Chain' (fun u v => u < v) roots ∧ roots.length ≤ 2 ∧
      (∀ r ∈ roots, r ^ 2 % (q : ℤ) = n % (q : ℤ)) ∧
      (∀ r1 r2, roots = [r1, r2] → r1 + r2 = (q : ℤ)) ∧
      ((q : ℤ) ∣ n → roots = [0]) :=
  tonelli_spec q hq h2 n

/-- C1, witness: the statement instantiated at the odd prime 13 and
`n = 10`, which exercises the full Tonelli-Shanks loop since
`13 ≡ 1 (mod 4)`. -/
theorem claim_C1_witness :
    ∃ roots, tonelli_shanks 10 ((13 : ℕ) : ℤ) = .ok roots ∧
      List.Chain' (fun u v => u < v) roots ∧ roots.length ≤ 2 ∧
      (∀ r ∈ roots, r ^ 2 % ((13 : ℕ) : ℤ) = 10 % ((13 : ℕ) : ℤ)) ∧
      (∀ r1 r2, roots = [r1, r2] → r1 + r2 = ((13 : ℕ) : ℤ)) ∧
      (((13 : ℕ) : ℤ) ∣ 10 → roots = [0]) :=
  claim_C1_theorem 13 (by norm_num) (by norm_num) 10

/-! ### Claim C5 -/

theorem emitRoots_spec (P : ℤ → ℤ → Prop) (x maxT : ℤ) :
    ∀ (roots xs ys : List ℤ) (count : ℕ),
      xs.length = count → ys.length = count → (count : ℤ) < maxT →
      (∀ pr ∈ xs.zip ys, P pr.1 pr.2) → (∀ r ∈ roots, P x r) →
      ∃ xs2 ys2 count2 stop,
        emitRoots x maxT roots xs ys count = (xs2, ys2, count2, stop) ∧
        xs2.length = count2 ∧ ys2.length = count2 ∧ (count2 : ℤ) ≤ maxT ∧
        (stop = false → (count2 : ℤ) < maxT) ∧
        (∀ pr ∈ xs2.zip ys2, P pr.1 pr.2) := by
  intro roots
  induction roots with
  | nil =>
    intro xs ys count hx hy hc hP _
    exact ⟨xs, ys, count, false, rfl, hx, hy, by omega, fun _ => hc, hP⟩
  | cons r rest ih =>
    intro xs ys count hx hy hc hP hroots
    rw [emitRoots]
    have hzip : (xs ++ [x]).zip (ys ++ [r]) = xs.zip ys ++ [(x, r)] := by
      rw [List.zip_append (by omega)]
      rfl
    have hP2 : ∀ pr ∈ (xs ++ [x]).zip (ys ++ [r]), P pr.1 pr.2 := by
      intro pr hpr
      rw [hzip] at hpr
      rcases List.mem_append.mp hpr with h | h
      · exact hP pr h
      · simp only [List.mem_singleton] at h
        rw [h]
        exact hroots r (by simp)
    by_cases hstop : (count : ℤ) + 1 ≥ maxT
    · rw [if_pos hstop]
      refine ⟨xs ++ [x], ys ++ [r], count + 1, true, rfl, by simp [hx], by simp [hy],
        by push_cast; omega, fun h => by simp at h, hP2⟩
    · rw [if_neg hstop]
      exact ih (xs ++ [x]) (ys ++ [r]) (count + 1) (by simp [hx]) (by simp [hy])
        (by push_cast at hstop ⊢; omega) hP2 (fun r' h => hroots r' (by simp [h]))

theorem fpLoop_spec {q : ℕ} (hq : Nat.Prime q) (h2 : q ≠ 2) (a b maxT : ℤ) :
    ∀ (xlist xs ys : List ℤ) (count : ℕ),
      xs.length = count → ys.length = count → (count : ℤ) < maxT →
      (∀ pr ∈ xs.zip ys, pr.2 ^ 2 ≡ pr.1 ^ 3 + a * pr.1 + b [ZMOD (q : ℤ)]) →
      (fpLoop a b (q : ℤ) maxT xlist xs ys count).1.length
          = (fpLoop a b (q : ℤ) maxT xlist xs ys count).2.length ∧
        ((fpLoop a b (q : ℤ) maxT xlist xs ys count).1.length : ℤ) ≤ maxT ∧
        ∀ pr ∈ (fpLoop a b (q : ℤ) maxT xlist xs ys count).1.zip
            (fpLoop a b (q : ℤ) maxT xlist xs ys count).2,
          pr.2 ^ 2 ≡ pr.1 ^ 3 + a * pr.1 + b [ZMOD (q : ℤ)] := by
  have h3 : 3 ≤ q := by
    have := hq.two_le
    omega
  intro xlist
  induction xlist with
  | nil =>
    intro xs ys count hx hy hc hP
    rw [fpLoop]
    refine ⟨?_, ?_, ?_⟩
    · show xs.length = ys.length
      omega
    · show ((xs.length : ℤ)) ≤ maxT
      omega
    · show ∀ pr ∈ xs.zip ys, pr.2 ^ 2 ≡ pr.1 ^ 3 + a * pr.1 + b [ZMOD (q : ℤ)]
      exact hP
  | cons x rest ih =>
    intro xs ys count hx hy hc hP
    obtain ⟨roots, hok, _hch, _hl, hmem, _hpr, _hdvd⟩ :=
      tonelli_spec q hq h2 ((powMod x 3 (q : ℤ) + a * x + b).fmod (q : ℤ))
    have hrootsP : ∀ r ∈ roots, r ^ 2 ≡ x ^ 3 + a * x + b [ZMOD (q : ℤ)] := by
      intro r hr
      have h1 : r ^ 2 ≡ (powMod x 3 (q : ℤ) + a * x + b).fmod (q : ℤ) [ZMOD (q : ℤ)] :=
        hmem r hr
      refine h1.trans ?_
      rw [← ZMod.intCast_eq_intCast_iff]
      rw [fmod_cast_zmod]
      push_cast
      rw [powMod_cast]
    obtain ⟨xs2, ys2, count2, stop, hemit, hlx, hly, hle, hlt, hP2⟩ :=
      emitRoots_spec (fun u v => v ^ 2 ≡ u ^ 3 + a * u + b [ZMOD (q : ℤ)]) x maxT
        roots xs ys count hx hy hc hP hrootsP
    have hstep : fpLoop a b (q : ℤ) maxT (x :: rest) xs ys count
        = if stop then (xs2, ys2) else fpLoop a b (q : ℤ) maxT rest xs2 ys2 count2 := by
      simp only [fpLoop, hok, hemit]
    cases stop with
    | true =>
      rw [hstep, if_pos rfl]
      refine ⟨?_, ?_, ?_⟩
      · show xs2.length = ys2.length
        omega
      · show ((xs2.length : ℤ)) ≤ maxT
        omega
      · show ∀ pr ∈ xs2.zip ys2, pr.2 ^ 2 ≡ pr.1 ^ 3 + a * pr.1 + b [ZMOD (q : ℤ)]
        exact hP2
    | false =>
      rw [hstep, if_neg (by simp)]
      exact ih xs2 ys2 count2 hlx hly (hlt rfl) hP2

/-- C5, counterexample: on the odd prime `p = 3` with curve `a = b = 0`,
`x_limit = 1` and `max_total_points = 0`, the function still returns one
point (the cap is only checked after a point is appended), so the result
is not bounded by `max_total_points` for every cap value. -/
theorem claim_C5_counterexample :
    Nat.Prime 3 ∧ (find_points_on_curve 0 0 3 1 0).1.length = 1 ∧
      ¬ ((find_points_on_curve 0 0 3 1 0).1.length ≤ 0) := by
  refine ⟨by norm_num, ?_, ?_⟩ <;> decide

/-- C5, amended: for an odd prime `p` and a cap `max_total_points ≥ 1`
(the cap can be exceeded by one point when it is `≤ 0`), the function
returns two lists of equal length, at most `max_total_points` pairs, and
every returned pair `(x, y)` satisfies `y² ≡ x³ + ax + b (mod p)`. -/
theorem claim_C5_theorem (q : ℕ) (hq : Nat.Prime q) (h2 : q ≠ 2) (a b x_limit maxT : ℤ)
    (hmax : 1 ≤ maxT) :
    ((find_points_on_curve a b (q : ℤ) x_limit maxT).1.length : ℤ) ≤ maxT ∧
      (find_points_on_curve a b (q : ℤ) x_limit maxT).1.length
        = (find_points_on_curve a b (q : ℤ) x_limit maxT).2.length ∧
      ∀ pr ∈ (find_points_on_curve a b (q : ℤ) x_limit maxT).1.zip
          (find_points_on_curve a b (q : ℤ) x_limit maxT).2,
        pr.2 ^ 2 ≡ pr.1 ^ 3 + a * pr.1 + b [ZMOD (q : ℤ)] := by
  have h3 : 3 ≤ q := by
    have := hq.two_le
    omega
  unfold find_points_on_curve
  rw [if_neg (by omega : ¬ ((q : ℤ) ≤ 2))]
  obtain ⟨h1', h2', h3'⟩ := fpLoop_spec hq h2 a b maxT
    ((List.range x_limit.toNat).map (fun k : ℕ => (k : ℤ))) [] [] 0 rfl rfl
    (by omega) (by simp)
  exact ⟨h2', h1', h3'⟩

/-! ### The Weierstrass model of the Python curve over `ZMod q` -/

/-- The short Weierstrass curve `y² = x³ + Ax + B` over `ZMod q`, the
mathematical object computed by the `Point` class. -/
def Wcurve (q : ℕ) (A B : ℤ) : WeierstrassCurve.Affine (ZMod q) :=
  ⟨0, 0, 0, (A : ZMod q), (B : ZMod q)⟩

theorem Wcurve_equation_iff' {q : ℕ} (A B : ℤ) (X Y : ZMod q) :
    (Wcurve q A B).Equation X Y ↔ Y ^ 2 = X ^ 3 + (A : ZMod q) * X + (B : ZMod q) := by
  rw [WeierstrassCurve.Affine.equation_iff]
  show Y ^ 2 + 0 * X * Y + 0 * Y = X ^ 3 + 0 * X ^ 2 + (A : ZMod q) * X + (B : ZMod q) ↔ _
  constructor
  · intro h
    linear_combination h
  · intro h
    linear_combination h

theorem Wcurve_negY {q : ℕ} (A B : ℤ) (X Y : ZMod q) :
    (Wcurve q A B).negY X Y = -Y := by
  show -Y - 0 * X - 0 = -Y
  ring

theorem Wcurve_delta_ne {q : ℕ} [Fact (Nat.Prime q)] (h2 : q ≠ 2) {A B : ℤ}
    (hΔ : ¬ ((q : ℤ) ∣ (4 * A ^ 3 + 27 * B ^ 2))) : (Wcurve q A B).Δ ≠ 0 := by
  have hΔ' : ((4 * A ^ 3 + 27 * B ^ 2 : ℤ) : ZMod q) ≠ 0 := by
    intro h
    exact hΔ ((ZMod.intCast_zmod_eq_zero_iff_dvd _ q).mp h)
  have hd : (Wcurve q A B).Δ = -16 * ((4 * A ^ 3 + 27 * B ^ 2 : ℤ) : ZMod q) := by
    simp only [WeierstrassCurve.Δ, WeierstrassCurve.b₂, WeierstrassCurve.b₄,
      WeierstrassCurve.b₆, WeierstrassCurve.b₈, Wcurve]
    push_cast
    ring
  rw [hd]
  intro h
  rcases mul_eq_zero.mp h with h16 | hu
  · have h16' : ((16 : ℕ) : ZMod q) = 0 := by
      have h16p : (16 : ZMod q) = 0 := neg_eq_zero.mp h16
      exact_mod_cast h16p
    have hdvd : q ∣ 16 := (ZMod.natCast_zmod_eq_zero_iff_dvd 16 q).mp h16'
    have : q ∣ 2 ^ 4 := by norm_num at hdvd ⊢; exact hdvd
    have hq2 : q = 2 :=
      ((Nat.prime_dvd_prime_iff_eq (Fact.out : Nat.Prime q) Nat.prime_two).mp
        ((Fact.out : Nat.Prime q).dvd_of_dvd_pow this))
    exact h2 hq2
  · exact hΔ' hu

theorem Wcurve_nonsingular {q : ℕ} [Fact (Nat.Prime q)] (h2 : q ≠ 2) {A B : ℤ}
    (hΔ : ¬ ((q : ℤ) ∣ (4 * A ^ 3 + 27 * B ^ 2))) {X Y : ZMod q}
    (heq : (Wcurve q A B).Equation X Y) : (Wcurve q A B).Nonsingular X Y :=
  WeierstrassCurve.Affine.nonsingular_of_Δ_ne_zero _ heq (Wcurve_delta_ne h2 hΔ)

/-- The Python on-curve check agrees with the Weierstrass equation. -/
theorem is_on_curve_iff_equation {q : ℕ} (h3 : 3 ≤ q) (A B xi yi : ℤ) :
    is_on_curve (some xi) (some yi) A B (q : ℤ) = true ↔
      (Wcurve q A B).Equation (xi : ZMod q) (yi : ZMod q) := by
  have hq0 : 0 < q := by omega
  unfold is_on_curve
  rw [decide_eq_true_eq, Wcurve_equation_iff']
  constructor
  · intro h
    have hc := congrArg (fun u : ℤ => ((u : ℤ) : ZMod q)) h
    simp only at hc
    rw [powMod_cast, fmod_cast_zmod] at hc
    push_cast at hc
    rw [powMod_cast] at hc
    exact hc
  · intro h
    refine cast_inj_of_range (powMod_range _ _ hq0).1 (powMod_range _ _ hq0).2
      (fmod_range _ hq0).1 (fmod_range _ hq0).2 ?_
    rw [powMod_cast, fmod_cast_zmod]
    push_cast
    rw [powMod_cast]
    exact h


/-- `P` is the integer-coordinate representation of the nonsingular point
`Pw` on the Weierstrass model: matching curve parameters, and either both
are the identity or the coordinates are reduced representatives. -/
def Represents (q : ℕ) (A B : ℤ) (P : Point) (Pw : (Wcurve q A B).Point) : Prop :=
  P.a = A ∧ P.b = B ∧ P.p = (q : ℤ) ∧
    ((P.x = none ∧ P.y = none ∧ Pw = 0) ∨
     (∃ xi yi : ℤ, P.x = some xi ∧ P.y = some yi ∧
       0 ≤ xi ∧ xi < q ∧ 0 ≤ yi ∧ yi < q ∧
       ∃ h : (Wcurve q A B).Nonsingular (xi : ZMod q) (yi : ZMod q),
         Pw = WeierstrassCurve.Affine.Point.some h))

theorem repr_identity (q : ℕ) (A B : ℤ) :
    Represents q A B ⟨none, none, A, B, (q : ℤ)⟩ 0 :=
  ⟨rfl, rfl, rfl, Or.inl ⟨rfl, rfl, rfl⟩⟩

theorem repr_eq_O {q : ℕ} {A B : ℤ} {P : Point} {Pw : (Wcurve q A B).Point}
    (h : Represents q A B P Pw) :
    pointEqPy P (some ⟨none, none, A, B, (q : ℤ)⟩) = true ↔ Pw = 0 := by
  obtain ⟨ha, hb, hp, hrest⟩ := h
  unfold pointEqPy
  rw [decide_eq_true_eq]
  rcases hrest with ⟨hx, hy, hw⟩ | ⟨xi, yi, hx, hy, _, _, _, _, hns, hw⟩
  · simp [hx, hy, ha, hb, hp, hw]
  · constructor
    · intro hcontra
      rw [hx] at hcontra
      simp at hcontra
    · intro h0
      rw [hw] at h0
      exact absurd h0 (WeierstrassCurve.Affine.Point.some_ne_zero _)

theorem repr_unique {q : ℕ} {A B : ℤ} {P P' : Point} {Pw : (Wcurve q A B).Point}
    (h : Represents q A B P Pw) (h' : Represents q A B P' Pw) : P = P' := by
  obtain ⟨ha, hb, hp, hr⟩ := h
  obtain ⟨ha', hb', hp', hr'⟩ := h'
  rcases hr with ⟨hx, hy, hw⟩ | ⟨xi, yi, hx, hy, hx0, hx1, hy0, hy1, hns, hw⟩ <;>
    rcases hr' with ⟨hx', hy', hw'⟩ | ⟨xi', yi', hx', hy', hx0', hx1', hy0', hy1', hns', hw'⟩
  · cases P
    cases P'
    simp_all
  · rw [hw] at hw'
    exact absurd hw'.symm (WeierstrassCurve.Affine.Point.some_ne_zero _)
  · rw [hw'] at hw
    exact absurd hw.symm (WeierstrassCurve.Affine.Point.some_ne_zero _)
  · rw [hw] at hw'
    injection hw' with hX hY
    have hxx : xi = xi' := cast_inj_of_range hx0 hx1 hx0' hx1' (by exact_mod_cast hX)
    have hyy : yi = yi' := cast_inj_of_range hy0 hy1 hy0' hy1' (by exact_mod_cast hY)
    cases P
    cases P'
    simp_all

/-- The modular inverse succeeds for a nonzero residue modulo a prime, and
its value is the field inverse in `ZMod q`. -/
theorem mod_inv_prime_ok {q : ℕ} [Fact (Nat.Prime q)] {den : ℤ} (h0 : 0 < den)
    (h1 : den < q) :
    ∃ r, mod_inv den (q : ℤ) = .ok r ∧ 0 ≤ r ∧ r < q ∧
      ((r : ℤ) : ZMod q) = (((den : ℤ) : ZMod q))⁻¹ := by
  have hq2 := (Fact.out : Nat.Prime q).two_le
  have hgcd : Int.gcd den (q : ℤ) = 1 := by
    have hnd : ¬ (q ∣ den.natAbs) := by
      intro hdvd
      have := Nat.le_of_dvd (by omega) hdvd
      omega
    have hco : Nat.Coprime den.natAbs q :=
      Nat.Coprime.symm (((Fact.out : Nat.Prime q).coprime_iff_not_dvd).mpr hnd)
    show Nat.gcd den.natAbs (q : ℤ).natAbs = 1
    rw [Int.natAbs_ofNat]
    exact hco
  obtain ⟨r, hr⟩ := (mod_inv_ok_char den (q : ℤ)).mpr
    ⟨Or.inl ⟨h0, hgcd⟩, by exact_mod_cast (by omega : ¬ (q = 0))⟩
  have hval := mod_inv_ok_value (by exact_mod_cast (by omega : 0 < q)) hr
  refine ⟨r, hr, hval.1, hval.2.1, ?_⟩
  have hcast : ((den : ℤ) : ZMod q) * ((r : ℤ) : ZMod q) = 1 := by
    have hmod := (ZMod.intCast_eq_intCast_iff _ _ _).mpr hval.2.2
    push_cast at hmod
    exact hmod
  exact eq_inv_of_mul_eq_one_right hcast

/-- A successful `mkPoint` on reduced coordinates of a nonsingular point
represents that point. -/
theorem mk_add_represents {q : ℕ} (h3 : 3 ≤ q) (A B : ℤ) {x3 y3 : ℤ}
    (hx30 : 0 ≤ x3) (hx31 : x3 < q) (hy30 : 0 ≤ y3) (hy31 : y3 < q)
    (hns : (Wcurve q A B).Nonsingular (x3 : ZMod q) (y3 : ZMod q)) :
    ∃ S, mkPoint (some x3) (some y3) A B (q : ℤ) = .ok S ∧
      Represents q A B S (WeierstrassCurve.Affine.Point.some hns) := by
  have honc : is_on_curve (some x3) (some y3) A B (q : ℤ) = true :=
    (is_on_curve_iff_equation h3 A B x3 y3).mpr hns.1
  unfold mkPoint
  rw [if_neg (by simp), if_neg (by omega), if_pos honc]
  exact ⟨_, rfl, rfl, rfl, rfl, Or.inr ⟨x3, y3, rfl, rfl, hx30, hx31, hy30, hy31, hns, rfl⟩⟩

theorem Wcurve_a1 (q : ℕ) (A B : ℤ) : (Wcurve q A B).a₁ = 0 := rfl

theorem Wcurve_a2 (q : ℕ) (A B : ℤ) : (Wcurve q A B).a₂ = 0 := rfl

theorem Wcurve_a3 (q : ℕ) (A B : ℤ) : (Wcurve q A B).a₃ = 0 := rfl

theorem Wcurve_a4 (q : ℕ) (A B : ℤ) : (Wcurve q A B).a₄ = (A : ZMod q) := rfl

theorem int_eq_iff_cast {q : ℕ} {u v : ℤ} (hu0 : 0 ≤ u) (hu1 : u < q) (hv0 : 0 ≤ v)
    (hv1 : v < q) : u = v ↔ ((u : ZMod q)) = ((v : ZMod q)) :=
  ⟨fun h => by rw [h], cast_inj_of_range hu0 hu1 hv0 hv1⟩

theorem neg_fmod_iff_cast {q : ℕ} (hq0 : 0 < q) {y1 y2 : ℤ} (hy10 : 0 ≤ y1) (hy11 : y1 < q) :
    y1 = (-y2).fmod (q : ℤ) ↔ ((y1 : ZMod q)) = -((y2 : ZMod q)) := by
  constructor
  · intro h
    have hc := congrArg (fun u : ℤ => ((u : ℤ) : ZMod q)) h
    simp only at hc
    rw [fmod_cast_zmod] at hc
    push_cast at hc
    exact hc
  · intro h
    refine cast_inj_of_range hy10 hy11 (fmod_range _ hq0).1 (fmod_range _ hq0).2 ?_
    rw [fmod_cast_zmod]
    push_cast
    exact h

theorem l_cast_eq {q : ℕ} (num inv : ℤ) :
    ((((num * inv).fmod ((q : ℕ) : ℤ)) : ℤ) : ZMod q) =
      ((num : ℤ) : ZMod q) * ((inv : ℤ) : ZMod q) := by
  rw [fmod_cast_zmod]
  push_cast
  ring

theorem x3_cast_addX {q : ℕ} (A B : ℤ) (x1 x2 l : ℤ) :
    (((powMod l 2 ((q : ℕ) : ℤ) - x1 - x2).fmod ((q : ℕ) : ℤ) : ℤ) : ZMod q) =
      (Wcurve q A B).addX (x1 : ZMod q) (x2 : ZMod q) ((l : ℤ) : ZMod q) := by
  rw [fmod_cast_zmod]
  push_cast
  rw [powMod_cast]
  simp only [WeierstrassCurve.Affine.addX, Wcurve_a1, Wcurve_a2]
  ring

theorem y3_cast_addY {q : ℕ} (A B : ℤ) (x1 x2 y1 l : ℤ) :
    (((l * (x1 - (powMod l 2 ((q : ℕ) : ℤ) - x1 - x2).fmod ((q : ℕ) : ℤ)) - y1).fmod
        ((q : ℕ) : ℤ) : ℤ) : ZMod q) =
      (Wcurve q A B).addY (x1 : ZMod q) (x2 : ZMod q) (y1 : ZMod q) ((l : ℤ) : ZMod q) := by
  rw [fmod_cast_zmod]
  push_cast
  rw [fmod_cast_zmod]
  push_cast
  rw [powMod_cast]
  simp only [WeierstrassCurve.Affine.addY, WeierstrassCurve.Affine.negAddY,
    WeierstrassCurve.Affine.negY, WeierstrassCurve.Affine.addX, Wcurve_a1, Wcurve_a2,
    Wcurve_a3]
  ring

/-- Common tail of the two slope branches of `pointAdd`: once the computed
`l` reduces to the Weierstrass slope, the resulting `mkPoint` call succeeds
and represents the Weierstrass sum. -/
theorem pointAdd_tail_represents {q : ℕ} [Fact (Nat.Prime q)] (h3 : 3 ≤ q) (A B : ℤ)
    {x1 y1 x2 y2 l : ℤ}
    (hns1 : (Wcurve q A B).Nonsingular (x1 : ZMod q) (y1 : ZMod q))
    (hns2 : (Wcurve q A B).Nonsingular (x2 : ZMod q) (y2 : ZMod q))
    {hns12 : (Wcurve q A B).Nonsingular
      ((Wcurve q A B).addX (x1 : ZMod q) (x2 : ZMod q)
        ((Wcurve q A B).slope (x1 : ZMod q) (x2 : ZMod q) (y1 : ZMod q) (y2 : ZMod q)))
      ((Wcurve q A B).addY (x1 : ZMod q) (x2 : ZMod q) (y1 : ZMod q)
        ((Wcurve q A B).slope (x1 : ZMod q) (x2 : ZMod q) (y1 : ZMod q) (y2 : ZMod q)))}
    (hadd : WeierstrassCurve.Affine.Point.some hns1 + WeierstrassCurve.Affine.Point.some hns2 =
      WeierstrassCurve.Affine.Point.some hns12)
    (hlc : ((l : ℤ) : ZMod q) =
      (Wcurve q A B).slope (x1 : ZMod q) (x2 : ZMod q) (y1 : ZMod q) (y2 : ZMod q)) :
    ∃ S, mkPoint (some ((powMod l 2 ((q : ℕ) : ℤ) - x1 - x2).fmod ((q : ℕ) : ℤ)))
        (some ((l * (x1 - (powMod l 2 ((q : ℕ) : ℤ) - x1 - x2).fmod ((q : ℕ) : ℤ)) - y1).fmod
          ((q : ℕ) : ℤ))) A B ((q : ℕ) : ℤ) = .ok S ∧
      Represents q A B S (WeierstrassCurve.Affine.Point.some hns1 +
        WeierstrassCurve.Affine.Point.some hns2) := by
  have hq0 : 0 < q := by omega
  have hx3r := fmod_range (powMod l 2 ((q : ℕ) : ℤ) - x1 - x2) hq0
  have hy3r := fmod_range
    (l * (x1 - (powMod l 2 ((q : ℕ) : ℤ) - x1 - x2).fmod ((q : ℕ) : ℤ)) - y1) hq0
  have hx3c := @x3_cast_addX q A B x1 x2 l
  have hy3c := @y3_cast_addY q A B x1 x2 y1 l
  rw [hlc] at hx3c hy3c
  have hkey : ∃ h : (Wcurve q A B).Nonsingular
      (((powMod l 2 ((q : ℕ) : ℤ) - x1 - x2).fmod ((q : ℕ) : ℤ) : ℤ) : ZMod q)
      (((l * (x1 - (powMod l 2 ((q : ℕ) : ℤ) - x1 - x2).fmod ((q : ℕ) : ℤ)) - y1).fmod
        ((q : ℕ) : ℤ) : ℤ) : ZMod q),
      WeierstrassCurve.Affine.Point.some hns12 = WeierstrassCurve.Affine.Point.some h := by
    rw [hx3c, hy3c]
    exact ⟨hns12, rfl⟩
  obtain ⟨h', hkey'⟩ := hkey
  obtain ⟨S, hmk, hrep⟩ := mk_add_represents h3 A B hx3r.1 hx3r.2 hy3r.1 hy3r.2 h'
  refine ⟨S, hmk, ?_⟩
  rw [hadd, hkey']
  exact hrep

/-- `pointAdd` on two valid affine points of the same curve over an odd
prime modulus succeeds and computes the Weierstrass group sum. -/
theorem pointAdd_sim_affine {q : ℕ} [Fact (Nat.Prime q)] (h3 : 3 ≤ q) (h2 : q ≠ 2)
    (A B : ℤ) {x1 y1 x2 y2 : ℤ}
    (hx10 : 0 ≤ x1) (hx11 : x1 < q) (hy10 : 0 ≤ y1) (hy11 : y1 < q)
    (hx20 : 0 ≤ x2) (hx21 : x2 < q) (hy20 : 0 ≤ y2) (hy21 : y2 < q)
    (hns1 : (Wcurve q A B).Nonsingular (x1 : ZMod q) (y1 : ZMod q))
    (hns2 : (Wcurve q A B).Nonsingular (x2 : ZMod q) (y2 : ZMod q)) :
    ∃ S, pointAdd ⟨some x1, some y1, A, B, (q : ℤ)⟩ ⟨some x2, some y2, A, B, (q : ℤ)⟩ =
        .ok S ∧
      Represents q A B S (WeierstrassCurve.Affine.Point.some hns1 +
        WeierstrassCurve.Affine.Point.some hns2) := by
  have hq0 : 0 < q := by omega
  have htwo_ne : (2 : ZMod q) ≠ 0 := by
    intro h2z
    have h2n : ((2 : ℕ) : ZMod q) = 0 := by exact_mod_cast h2z
    have hdvd := (ZMod.natCast_zmod_eq_zero_iff_dvd 2 q).mp h2n
    exact h2 ((Nat.prime_dvd_prime_iff_eq (Fact.out : Nat.Prime q) Nat.prime_two).mp hdvd)
  by_cases hc1 : x1 = x2 ∧ y1 = (-y2).fmod ((q : ℕ) : ℤ)
  · -- inverse points: the sum is the identity
    have heq : pointAdd ⟨some x1, some y1, A, B, (q : ℤ)⟩ ⟨some x2, some y2, A, B, (q : ℤ)⟩ =
        .ok ⟨none, none, A, B, (q : ℤ)⟩ := by
      unfold pointAdd
      rw [if_neg (by simp), if_neg (by simp), if_neg (by simp)]
      dsimp only
      rw [if_pos hc1]
    refine ⟨_, heq, ?_⟩
    have hX12 : (x1 : ZMod q) = (x2 : ZMod q) := by rw [hc1.1]
    have hY1n : (y1 : ZMod q) = (Wcurve q A B).negY (x2 : ZMod q) (y2 : ZMod q) := by
      rw [Wcurve_negY]
      exact (neg_fmod_iff_cast hq0 hy10 hy11).mp hc1.2
    rw [WeierstrassCurve.Affine.Point.add_of_Y_eq hX12 hY1n]
    exact repr_identity q A B
  · by_cases hcD : x1 = x2 ∧ y1 = y2
    · -- doubling branch
      have hy1ne : y1 ≠ 0 := by
        intro h0
        exact hc1 ⟨hcD.1, by rw [← hcD.2, h0, neg_zero, Int.zero_fmod]⟩
      have hc2 : ¬ ((x1 = x2 ∧ y1 = y2) ∧ y1 = 0) := fun h => hy1ne h.2
      have hX12 : (x1 : ZMod q) = (x2 : ZMod q) := by rw [hcD.1]
      have hY1ne0 : (y1 : ZMod q) ≠ 0 := by
        intro hz
        apply hy1ne
        refine cast_inj_of_range hy10 hy11 le_rfl (by exact_mod_cast hq0) ?_
        rw [hz]
        norm_num
      have hYne : (y1 : ZMod q) ≠ (Wcurve q A B).negY (x2 : ZMod q) (y2 : ZMod q) := by
        rw [Wcurve_negY, ← hcD.2]
        intro h
        have h2y : (2 : ZMod q) * (y1 : ZMod q) = 0 := by linear_combination h
        rcases mul_eq_zero.mp h2y with h' | h'
        · exact htwo_ne h'
        · exact hY1ne0 h'
      have hden_range := fmod_range (2 * y1) hq0
      have hden_cast : (((2 * y1).fmod ((q : ℕ) : ℤ) : ℤ) : ZMod q) =
          2 * (y1 : ZMod q) := by
        rw [fmod_cast_zmod]
        push_cast
        ring
      have hden_pos : 0 < (2 * y1).fmod ((q : ℕ) : ℤ) := by
        rcases lt_or_eq_of_le hden_range.1 with h | h
        · exact h
        · exfalso
          have hz : (2 : ZMod q) * (y1 : ZMod q) = 0 := by
            rw [← hden_cast, ← h]
            norm_num
          rcases mul_eq_zero.mp hz with h' | h'
          · exact htwo_ne h'
          · exact hY1ne0 h'
      obtain ⟨inv, hinv, hinv0, hinv1, hinvc⟩ := mod_inv_prime_ok hden_pos hden_range.2
      have hnc : (((3 * powMod x1 2 ((q : ℕ) : ℤ) + A).fmod ((q : ℕ) : ℤ) : ℤ) : ZMod q) =
          3 * (x1 : ZMod q) ^ 2 + (A : ZMod q) := by
        rw [fmod_cast_zmod]
        push_cast
        rw [powMod_cast]
      have hlc : ((((3 * powMod x1 2 ((q : ℕ) : ℤ) + A).fmod ((q : ℕ) : ℤ) * inv).fmod
            ((q : ℕ) : ℤ) : ℤ) : ZMod q) =
          (Wcurve q A B).slope (x1 : ZMod q) (x2 : ZMod q) (y1 : ZMod q) (y2 : ZMod q) := by
        rw [l_cast_eq, hnc, hinvc, hden_cast,
          WeierstrassCurve.Affine.slope_of_Y_ne hX12 hYne, Wcurve_negY, Wcurve_a1, Wcurve_a2,
          Wcurve_a4]
        rw [div_eq_mul_inv,
          show (y1 : ZMod q) - -(y1 : ZMod q) = 2 * (y1 : ZMod q) by ring]
        ring
      obtain ⟨S, hmk, hrep⟩ := pointAdd_tail_represents h3 A B hns1 hns2
        (WeierstrassCurve.Affine.Point.add_of_Y_ne hYne) hlc
      refine ⟨S, ?_, hrep⟩
      unfold pointAdd
      rw [if_neg (by simp), if_neg (by simp), if_neg (by simp)]
      dsimp only
      rw [if_neg hc1, if_neg hc2, if_pos hcD]
      dsimp only
      rw [hinv]
      exact hmk
    · -- distinct x-coordinates
      have hXne_int : x1 ≠ x2 := by
        intro hxe
        have hdich := WeierstrassCurve.Affine.Y_eq_of_X_eq hns1.1 hns2.1 (by rw [hxe])
        rcases hdich with h | h
        · exact hcD ⟨hxe, cast_inj_of_range hy10 hy11 hy20 hy21 h⟩
        · apply hc1
          refine ⟨hxe, ?_⟩
          rw [neg_fmod_iff_cast hq0 hy10 hy11]
          rw [Wcurve_negY] at h
          exact h
      have hXne : (x1 : ZMod q) ≠ (x2 : ZMod q) := fun h =>
        hXne_int (cast_inj_of_range hx10 hx11 hx20 hx21 h)
      have hc2 : ¬ ((x1 = x2 ∧ y1 = y2) ∧ y1 = 0) := fun h => hXne_int h.1.1
      have hden_range := fmod_range (x2 - x1) hq0
      have hden_cast : (((x2 - x1).fmod ((q : ℕ) : ℤ) : ℤ) : ZMod q) =
          (x2 : ZMod q) - (x1 : ZMod q) := by
        rw [fmod_cast_zmod]
        push_cast
        ring
      have hden_pos : 0 < (x2 - x1).fmod ((q : ℕ) : ℤ) := by
        rcases lt_or_eq_of_le hden_range.1 with h | h
        · exact h
        · exfalso
          have hz : (x2 : ZMod q) - (x1 : ZMod q) = 0 := by
            rw [← hden_cast, ← h]
            norm_num
          exact hXne (sub_eq_zero.mp hz).symm
      obtain ⟨inv, hinv, hinv0, hinv1, hinvc⟩ := mod_inv_prime_ok hden_pos hden_range.2
      have hnc : (((y2 - y1).fmod ((q : ℕ) : ℤ) : ℤ) : ZMod q) =
          (y2 : ZMod q) - (y1 : ZMod q) := by
        rw [fmod_cast_zmod]
        push_cast
        ring
      have hlc : ((((y2 - y1).fmod ((q : ℕ) : ℤ) * inv).fmod
            ((q : ℕ) : ℤ) : ℤ) : ZMod q) =
          (Wcurve q A B).slope (x1 : ZMod q) (x2 : ZMod q) (y1 : ZMod q) (y2 : ZMod q) := by
        rw [l_cast_eq, hnc, hinvc, hden_cast,
          WeierstrassCurve.Affine.slope_of_X_ne hXne]
        rw [div_eq_mul_inv,
          show (y1 : ZMod q) - (y2 : ZMod q) = -((y2 : ZMod q) - (y1 : ZMod q)) by ring,
          show (x1 : ZMod q) - (x2 : ZMod q) = -((x2 : ZMod q) - (x1 : ZMod q)) by ring,
          inv_neg]
        ring
      obtain ⟨S, hmk, hrep⟩ := pointAdd_tail_represents h3 A B hns1 hns2
        (WeierstrassCurve.Affine.Point.add_of_X_ne hXne) hlc
      refine ⟨S, ?_, hrep⟩
      unfold pointAdd
      rw [if_neg (by simp), if_neg (by simp), if_neg (by simp)]
      dsimp only
      rw [if_neg hc1, if_neg hc2, if_neg hcD]
      dsimp only
      rw [hinv]
      exact hmk

/-- A point value satisfying the data-model invariant of the specification:
either the identity, or reduced affine coordinates satisfying the curve
equation modulo `p`. -/
def ValidPoint (P : Point) : Prop :=
  (P.x = none ∧ P.y = none) ∨
  (∃ xi yi : ℤ, P.x = some xi ∧ P.y = some yi ∧
    0 ≤ xi ∧ xi < P.p ∧ 0 ≤ yi ∧ yi < P.p ∧
    yi ^ 2 % P.p = (xi ^ 3 + P.a * xi + P.b) % P.p)

/-- Every specification-valid point on a nonsingular curve over an odd
prime modulus represents some point of the Weierstrass model. -/
theorem validPoint_represents {q : ℕ} [Fact (Nat.Prime q)] (h2 : q ≠ 2)
    {A B : ℤ} (hΔ : ¬ ((q : ℤ) ∣ (4 * A ^ 3 + 27 * B ^ 2))) {P : Point}
    (ha : P.a = A) (hb : P.b = B) (hp : P.p = (q : ℤ)) (hv : ValidPoint P) :
    ∃ Pw, Represents q A B P Pw := by
  rcases hv with ⟨hx, hy⟩ | ⟨xi, yi, hx, hy, h0, h1, h0', h1', heq⟩
  · exact ⟨0, ha, hb, hp, Or.inl ⟨hx, hy, rfl⟩⟩
  · rw [ha, hb, hp] at heq
    rw [hp] at h1 h1'
    have hE : (Wcurve q A B).Equation (xi : ZMod q) (yi : ZMod q) := by
      rw [Wcurve_equation_iff']
      have hc := (ZMod.intCast_eq_intCast_iff' _ _ _).mpr heq
      push_cast at hc
      exact hc
    have hns := Wcurve_nonsingular h2 hΔ hE
    exact ⟨WeierstrassCurve.Affine.Point.some hns, ha, hb, hp,
      Or.inr ⟨xi, yi, hx, hy, h0, h1, h0', h1', hns, rfl⟩⟩

theorem except_bind_ok {ε α β : Type} (a : α) (f : α → Except ε β) :
    ((Except.ok a : Except ε α) >>= f) = f a := rfl

theorem except_bind_err {ε α β : Type} (e : ε) (f : α → Except ε β) :
    ((Except.error e : Except ε α) >>= f) = Except.error e := rfl

theorem except_pure_bind {ε α β : Type} (a : α) (f : α → Except ε β) :
    ((pure a : Except ε α) >>= f) = f a := rfl

theorem ebind_ok {ε α β : Type} (a : α) (f : α → Except ε β) :
    (Except.ok a : Except ε α).bind f = f a := rfl

theorem ebind_err {ε α β : Type} (e : ε) (f : α → Except ε β) :
    (Except.error e : Except ε α).bind f = Except.error e := rfl

theorem iterAdd_succ (G : Point) (m : ℕ) :
    iterAdd G (m + 1) = (iterAdd G m).bind (fun c => pointAdd c G) := rfl

theorem bool_ne_true_eq_false {b : Bool} (h : ¬ (b = true)) : b = false := by
  cases b
  · rfl
  · exact absurd rfl h

/-- `pointAdd` on any two represented points of a common nonsingular curve
succeeds and computes the Weierstrass group sum. -/
theorem pointAdd_sim {q : ℕ} [Fact (Nat.Prime q)] (h3 : 3 ≤ q) (h2 : q ≠ 2)
    {A B : ℤ} {P Q : Point} {Pw Qw : (Wcurve q A B).Point}
    (hP : Represents q A B P Pw) (hQ : Represents q A B Q Qw) :
    ∃ S, pointAdd P Q = .ok S ∧ Represents q A B S (Pw + Qw) := by
  obtain ⟨haP, hbP, hpP, hrP⟩ := hP
  obtain ⟨haQ, hbQ, hpQ, hrQ⟩ := hQ
  have hmatch : ¬ (P.p ≠ Q.p ∨ P.a ≠ Q.a ∨ P.b ≠ Q.b) := by
    push_neg
    refine ⟨by rw [hpP, hpQ], by rw [haP, haQ], by rw [hbP, hbQ]⟩
  rcases hrP with ⟨hxP, hyP, hwP⟩ | ⟨x1, y1, hxP, hyP, hx10, hx11, hy10, hy11, hns1, hwP⟩
  · have hred : pointAdd P Q = .ok Q := by
      unfold pointAdd
      rw [if_neg hmatch, if_pos hxP]
    rw [hwP, zero_add]
    exact ⟨Q, hred, haQ, hbQ, hpQ, hrQ⟩
  · rcases hrQ with ⟨hxQ, hyQ, hwQ⟩ | ⟨x2, y2, hxQ, hyQ, hx20, hx21, hy20, hy21, hns2, hwQ⟩
    · have hPx : P.x ≠ none := by
        rw [hxP]
        simp
      have hred : pointAdd P Q = .ok P := by
        unfold pointAdd
        rw [if_neg hmatch, if_neg hPx, if_pos hxQ]
      rw [hwQ, add_zero]
      exact ⟨P, hred, haP, hbP, hpP,
        Or.inr ⟨x1, y1, hxP, hyP, hx10, hx11, hy10, hy11, hns1, hwP⟩⟩
    · have hPeq : P = ⟨some x1, some y1, A, B, (q : ℤ)⟩ := by
        cases P
        simp_all
      have hQeq : Q = ⟨some x2, some y2, A, B, (q : ℤ)⟩ := by
        cases Q
        simp_all
      rw [hPeq, hQeq, hwP, hwQ]
      exact pointAdd_sim_affine h3 h2 A B hx10 hx11 hy10 hy11 hx20 hx21 hy20 hy21 hns1 hns2

/-- The double-and-add loop of `__rmul__` computes `Rw + k • Cw`. -/
theorem rmulLoop_sim {q : ℕ} [Fact (Nat.Prime q)] (h3 : 3 ≤ q) (h2 : q ≠ 2) {A B : ℤ} :
    ∀ k : ℕ, ∀ {result current : Point} {Rw Cw : (Wcurve q A B).Point},
      Represents q A B result Rw → Represents q A B current Cw →
      ∃ H, rmulLoop k result current = .ok H ∧ Represents q A B H (Rw + k • Cw) := by
  intro k
  induction k using Nat.strong_induction_on with
  | _ k ih =>
    match k with
    | 0 =>
      intro result current Rw Cw hR hC
      refine ⟨result, by rw [rmulLoop], ?_⟩
      rw [zero_nsmul, add_zero]
      exact hR
    | k + 1 =>
      intro result current Rw Cw hR hC
      obtain ⟨c, hc, hcrep⟩ := pointAdd_sim h3 h2 hC hC
      by_cases hpar : (k + 1) % 2 = 1
      · obtain ⟨r, hr, hrrep⟩ := pointAdd_sim h3 h2 hR hC
        obtain ⟨H, hH, hHrep⟩ :=
          ih ((k + 1) / 2) (Nat.div_lt_self (Nat.succ_pos k) one_lt_two) hrrep hcrep
        refine ⟨H, ?_, ?_⟩
        · rw [rmulLoop, if_pos hpar]
          simp only [hr, hc, except_bind_ok]
          exact hH
        · have harith : Rw + Cw + ((k + 1) / 2) • (Cw + Cw) = Rw + (k + 1) • Cw := by
            rw [← two_nsmul, ← mul_nsmul]
            set d := (k + 1) / 2 with hd
            have h1 : k + 1 = 1 + 2 * d := by omega
            rw [h1, add_nsmul, one_nsmul, add_assoc]
          rw [← harith]
          exact hHrep
      · obtain ⟨H, hH, hHrep⟩ :=
          ih ((k + 1) / 2) (Nat.div_lt_self (Nat.succ_pos k) one_lt_two) hR hcrep
        refine ⟨H, ?_, ?_⟩
        · rw [rmulLoop, if_neg hpar]
          simp only [hc, except_bind_ok, except_pure_bind]
          exact hH
        · have harith : Rw + ((k + 1) / 2) • (Cw + Cw) = Rw + (k + 1) • Cw := by
            rw [← two_nsmul, ← mul_nsmul]
            set d := (k + 1) / 2 with hd
            have h1 : k + 1 = 2 * d := by omega
            rw [h1]
          rw [← harith]
          exact hHrep

/-- `__rmul__` on a represented point computes the `k`-fold Weierstrass
multiple. -/
theorem rmul_sim {q : ℕ} [Fact (Nat.Prime q)] (h3 : 3 ≤ q) (h2 : q ≠ 2) {A B : ℤ}
    {G : Point} {Gw : (Wcurve q A B).Point} (hG : Represents q A B G Gw) (k : ℕ) :
    ∃ H, rmul (k : ℤ) G = .ok H ∧ Represents q A B H (k • Gw) := by
  obtain ⟨ha, hb, hp, hrest⟩ := hG
  unfold rmul
  rw [if_neg (by omega)]
  by_cases hk0 : (k : ℤ) = 0
  · rw [if_pos hk0]
    have hkn : k = 0 := by exact_mod_cast hk0
    subst hkn
    refine ⟨_, rfl, ?_⟩
    rw [zero_nsmul, ha, hb, hp]
    exact repr_identity q A B
  · rw [if_neg hk0]
    by_cases hGx : G.x = none
    · rw [if_pos hGx]
      rcases hrest with ⟨hx, hy, hw⟩ | ⟨xi, yi, hx, hrest'⟩
      · refine ⟨_, rfl, ?_⟩
        rw [hw]
        have hs0 : (k • (0 : (Wcurve q A B).Point)) = 0 := nsmul_zero k
        rw [hs0, ha, hb, hp]
        exact repr_identity q A B
      · rw [hx] at hGx
        simp at hGx
    · rw [if_neg hGx]
      have hO : Represents q A B ⟨none, none, G.a, G.b, G.p⟩ 0 := by
        rw [ha, hb, hp]
        exact repr_identity q A B
      obtain ⟨H, hH, hrep⟩ := rmulLoop_sim h3 h2 ((k : ℤ).toNat) hO ⟨ha, hb, hp, hrest⟩
      refine ⟨H, hH, ?_⟩
      rw [Int.toNat_natCast, zero_add] at hrep
      exact hrep

theorem claim_C5_witness :
    ((find_points_on_curve 1 1 ((5 : ℕ) : ℤ) 5 100).1.length : ℤ) ≤ 100 ∧
      (find_points_on_curve 1 1 ((5 : ℕ) : ℤ) 5 100).1.length
        = (find_points_on_curve 1 1 ((5 : ℕ) : ℤ) 5 100).2.length ∧
      ∀ pr ∈ (find_points_on_curve 1 1 ((5 : ℕ) : ℤ) 5 100).1.zip
          (find_points_on_curve 1 1 ((5 : ℕ) : ℤ) 5 100).2,
        pr.2 ^ 2 ≡ pr.1 ^ 3 + 1 * pr.1 + 1 [ZMOD ((5 : ℕ) : ℤ)] :=
  claim_C5_theorem 5 (by norm_num) (by norm_num) 1 1 5 100 (by norm_num)

/-- The `while` loop of `find_order_brute_force`: if it reports an order
`n`, the `n`-th multiple is the identity while no multiple strictly
between the entry index and `n` is. -/
theorem orderLoop_spec {q : ℕ} [Fact (Nat.Prime q)] (h3 : 3 ≤ q) (h2 : q ≠ 2) {A B : ℤ}
    {G : Point} {Gw : (Wcurve q A B).Point} (hG : Represents q A B G Gw) :
    ∀ fuel : ℕ, ∀ current : Point, ∀ order n : ℕ,
      Represents q A B current (order • Gw) →
      orderLoop G ⟨none, none, G.a, G.b, G.p⟩ fuel current order = .ok (some n) →
      order < n ∧ n • Gw = 0 ∧ ∀ m : ℕ, order < m → m < n → m • Gw ≠ 0 := by
  have haG := hG.1
  have hbG := hG.2.1
  have hpG := hG.2.2.1
  intro fuel
  induction fuel with
  | zero =>
    intro current order n hc h
    simp [orderLoop] at h
  | succ fuel ih =>
    intro current order n hc h
    obtain ⟨next, hnext, hnrep0⟩ := pointAdd_sim h3 h2 hc hG
    have hnrep : Represents q A B next ((order + 1) • Gw) := by
      rw [succ_nsmul]
      exact hnrep0
    simp only [orderLoop, hnext, except_bind_ok] at h
    by_cases heq : pointEqPy next (some ⟨none, none, G.a, G.b, G.p⟩) = true
    · rw [if_pos heq] at h
      have hn : n = order + 1 := by
        simp only [Except.ok.injEq, Option.some.injEq] at h
        omega
      subst hn
      have hO : (order + 1) • Gw = 0 := by
        apply (repr_eq_O hnrep).mp
        rw [← haG, ← hbG, ← hpG]
        exact heq
      exact ⟨by omega, hO, fun m hm1 hm2 => absurd hm2 (by omega)⟩
    · rw [if_neg heq] at h
      obtain ⟨hlt, hzero, hmid⟩ := ih next (order + 1) n hnrep h
      refine ⟨by omega, hzero, ?_⟩
      intro m hm1 hm2
      by_cases hm : m = order + 1
      · subst hm
        intro h0
        have ht := (repr_eq_O hnrep).mpr h0
        rw [← haG, ← hbG, ← hpG] at ht
        exact heq ht
      · exact hmid m (by omega) hm2

/-- The `while` loop returns `.ok none` (cap exhausted, no error) exactly
when every further multiple within its fuel exists and differs from the
identity point. -/
theorem orderLoop_none_iff (G O : Point) :
    ∀ fuel : ℕ, ∀ current : Point, ∀ order : ℕ,
      iterAdd G order = .ok current →
      (orderLoop G O fuel current order = .ok none ↔
        ∀ m : ℕ, order + 1 ≤ m → m ≤ order + fuel →
          ∃ H, iterAdd G m = .ok H ∧ pointEqPy H (some O) = false) := by
  intro fuel
  induction fuel with
  | zero =>
    intro current order hcur
    constructor
    · intro _ m hm1 hm2
      exact absurd (hm1.trans hm2) (by omega)
    · intro _
      rfl
  | succ fuel ih =>
    intro current order hcur
    cases hpa : pointAdd current G with
    | error e =>
      have hstep : orderLoop G O (fuel + 1) current order = .error e := by
        simp only [orderLoop, hpa, except_bind_err]
      constructor
      · intro h
        rw [hstep] at h
        exact Except.noConfusion h
      · intro hall
        obtain ⟨H, hit, _⟩ := hall (order + 1) le_rfl (by omega)
        have hit' : iterAdd G (order + 1) = .error e := by
          rw [iterAdd_succ, hcur, ebind_ok, hpa]
        rw [hit'] at hit
        exact Except.noConfusion hit
    | ok next =>
      have hit1 : iterAdd G (order + 1) = .ok next := by
        rw [iterAdd_succ, hcur, ebind_ok, hpa]
      have hstep : orderLoop G O (fuel + 1) current order =
          (if pointEqPy next (some O) = true then Except.ok (some (order + 1))
           else orderLoop G O fuel next (order + 1)) := by
        simp only [orderLoop, hpa, except_bind_ok]
      by_cases heq : pointEqPy next (some O) = true
      · constructor
        · intro h
          rw [hstep, if_pos heq] at h
          simp at h
        · intro hall
          obtain ⟨H, hit, hne⟩ := hall (order + 1) le_rfl (by omega)
          rw [hit1] at hit
          injection hit with hHn
          rw [← hHn] at hne
          rw [hne] at heq
          exact absurd heq (by simp)
      · constructor
        · intro h
          rw [hstep, if_neg heq] at h
          have hrec := (ih next (order + 1) hit1).mp h
          intro m hm1 hm2
          by_cases hm : m = order + 1
          · subst hm
            exact ⟨next, hit1, bool_ne_true_eq_false heq⟩
          · exact hrec m (by omega) (by omega)
        · intro hall
          rw [hstep, if_neg heq]
          refine (ih next (order + 1) hit1).mpr ?_
          intro m hm1 hm2
          exact hall m (by omega) (by omega)

/-- C2: on a nonsingular curve over an odd prime modulus, when
`find_order_brute_force` reports an order `n` for a specification-valid
point `G`, the scalar multiple `n * G` compares equal to the identity
point and no multiple `m * G` with `0 < m < n` does. -/
theorem claim_C2_theorem {q : ℕ} (hq : Nat.Prime q) (hodd : q ≠ 2) (G : Point)
    (hp : G.p = (q : ℤ)) (hΔ : ¬ ((q : ℤ) ∣ (4 * G.a ^ 3 + 27 * G.b ^ 2)))
    (hvalid : ValidPoint G) (n : ℕ)
    (hord : find_order_brute_force G = .ok (some n)) :
    (∃ H, rmul (n : ℤ) G = .ok H ∧
        pointEqPy H (some ⟨none, none, G.a, G.b, G.p⟩) = true) ∧
    (∀ m : ℕ, 0 < m → m < n →
      ∃ H, rmul (m : ℤ) G = .ok H ∧
        pointEqPy H (some ⟨none, none, G.a, G.b, G.p⟩) = false) := by
  haveI : Fact (Nat.Prime q) := ⟨hq⟩
  have h3 : 3 ≤ q := by
    have := hq.two_le
    omega
  by_cases hGx : G.x = none
  · have hn1 : n = 1 := by
      unfold find_order_brute_force at hord
      rw [if_pos hGx] at hord
      simp only [Except.ok.injEq, Option.some.injEq] at hord
      omega
    subst hn1
    constructor
    · refine ⟨⟨none, none, G.a, G.b, G.p⟩, ?_, ?_⟩
      · unfold rmul
        rw [if_neg (by omega), if_neg (by omega), if_pos hGx]
      · simp [pointEqPy]
    · intro m hm1 hm2
      exact absurd hm2 (by omega)
  · obtain ⟨Gw, hGrep⟩ := validPoint_represents hodd hΔ rfl rfl hp hvalid
    have hGw0 : Gw ≠ 0 := by
      obtain ⟨hh1, hh2, hh3, hrest⟩ := hGrep
      rcases hrest with ⟨hxn, hh4, hh5⟩ | ⟨x', y', hx', hy', hh4, hh5, hh6, hh7, hns, hw⟩
      · exact absurd hxn hGx
      · rw [hw]
        exact WeierstrassCurve.Affine.Point.some_ne_zero _
    have hloop : orderLoop G ⟨none, none, G.a, G.b, G.p⟩ (2 * G.p + 2).toNat G 1 =
        .ok (some n) := by
      unfold find_order_brute_force at hord
      rw [if_neg hGx] at hord
      exact hord
    have hc1 : Represents q G.a G.b G ((1 : ℕ) • Gw) := by
      rw [one_nsmul]
      exact hGrep
    obtain ⟨hlt, hzero, hmid⟩ :=
      orderLoop_spec h3 hodd hGrep ((2 * G.p + 2).toNat) G 1 n hc1 hloop
    constructor
    · obtain ⟨H, hH, hrep⟩ := rmul_sim h3 hodd hGrep n
      refine ⟨H, hH, ?_⟩
      have hx := (repr_eq_O hrep).mpr hzero
      rw [hp]
      exact hx
    · intro m hm1 hm2
      obtain ⟨H, hH, hrep⟩ := rmul_sim h3 hodd hGrep m
      refine ⟨H, hH, ?_⟩
      have hm0 : m • Gw ≠ 0 := by
        by_cases hm' : m = 1
        · subst hm'
          rw [one_nsmul]
          exact hGw0
        · exact hmid m (by omega) hm2
      rw [hp]
      exact bool_ne_true_eq_false (fun ht => hm0 ((repr_eq_O hrep).mp ht))

/-- C2, witness: on `y² = x³ + x + 1` over `F₅` the point `(0, 1)` has
reported order `9`; its ninth multiple is the identity and the first
eight are not. -/
theorem claim_C2_witness :
    find_order_brute_force ⟨some 0, some 1, 1, 1, ((5 : ℕ) : ℤ)⟩ = .ok (some 9) ∧
    ((∃ H, rmul ((9 : ℕ) : ℤ) ⟨some 0, some 1, 1, 1, ((5 : ℕ) : ℤ)⟩ = .ok H ∧
        pointEqPy H (some ⟨none, none, 1, 1, ((5 : ℕ) : ℤ)⟩) = true) ∧
     (∀ m : ℕ, 0 < m → m < 9 →
       ∃ H, rmul ((m : ℕ) : ℤ) ⟨some 0, some 1, 1, 1, ((5 : ℕ) : ℤ)⟩ = .ok H ∧
         pointEqPy H (some ⟨none, none, 1, 1, ((5 : ℕ) : ℤ)⟩) = false)) :=
  ⟨by decide,
    claim_C2_theorem (by norm_num) (by decide) ⟨some 0, some 1, 1, 1, ((5 : ℕ) : ℤ)⟩ rfl
      (by decide)
      (Or.inr ⟨0, 1, rfl, rfl, by decide, by decide, by decide, by decide, by decide⟩)
      9 (by decide)⟩

/-- C3: `pointAdd` is commutative on specification-valid points of a
common nonsingular curve over an odd prime modulus, identity included. -/
theorem claim_C3_theorem {q : ℕ} (hq : Nat.Prime q) (hodd : q ≠ 2) (A B : ℤ)
    (hΔ : ¬ ((q : ℤ) ∣ (4 * A ^ 3 + 27 * B ^ 2))) (P Q : Point)
    (hPa : P.a = A) (hPb : P.b = B) (hPp : P.p = (q : ℤ))
    (hQa : Q.a = A) (hQb : Q.b = B) (hQp : Q.p = (q : ℤ))
    (hPv : ValidPoint P) (hQv : ValidPoint Q) :
    pointAdd P Q = pointAdd Q P := by
  haveI : Fact (Nat.Prime q) := ⟨hq⟩
  have h3 : 3 ≤ q := by
    have := hq.two_le
    omega
  obtain ⟨Pw, hPrep⟩ := validPoint_represents hodd hΔ hPa hPb hPp hPv
  obtain ⟨Qw, hQrep⟩ := validPoint_represents hodd hΔ hQa hQb hQp hQv
  obtain ⟨S1, h1, hrep1⟩ := pointAdd_sim h3 hodd hPrep hQrep
  obtain ⟨S2, h2, hrep2⟩ := pointAdd_sim h3 hodd hQrep hPrep
  rw [h1, h2]
  rw [add_comm Qw Pw] at hrep2
  rw [repr_unique hrep1 hrep2]

/-- C3, witness: the valid points `(0, 1)` and `(2, 1)` of
`y² = x³ + x + 1` over `F₅` add the same in both orders. -/
theorem claim_C3_witness :
    ValidPoint ⟨some 0, some 1, 1, 1, ((5 : ℕ) : ℤ)⟩ ∧
    ValidPoint ⟨some 2, some 1, 1, 1, ((5 : ℕ) : ℤ)⟩ ∧
    pointAdd ⟨some 0, some 1, 1, 1, ((5 : ℕ) : ℤ)⟩ ⟨some 2, some 1, 1, 1, ((5 : ℕ) : ℤ)⟩ =
      pointAdd ⟨some 2, some 1, 1, 1, ((5 : ℕ) : ℤ)⟩ ⟨some 0, some 1, 1, 1, ((5 : ℕ) : ℤ)⟩ :=
  ⟨Or.inr ⟨0, 1, rfl, rfl, by decide, by decide, by decide, by decide, by decide⟩,
   Or.inr ⟨2, 1, rfl, rfl, by decide, by decide, by decide, by decide, by decide⟩,
   claim_C3_theorem (by norm_num) (by decide) 1 1 (by decide)
     ⟨some 0, some 1, 1, 1, ((5 : ℕ) : ℤ)⟩ ⟨some 2, some 1, 1, 1, ((5 : ℕ) : ℤ)⟩
     rfl rfl rfl rfl rfl rfl
     (Or.inr ⟨0, 1, rfl, rfl, by decide, by decide, by decide, by decide, by decide⟩)
     (Or.inr ⟨2, 1, rfl, rfl, by decide, by decide, by decide, by decide, by decide⟩)⟩

/-- C7: for a non-identity point the cap outcome of
`find_order_brute_force` is the ordinary value `.ok none`, not a raised
error, and it occurs exactly when every multiple computed within the
`2p + 2` iteration cap exists and differs from the identity; the identity
point itself immediately yields order `1`. -/
theorem claim_C7_theorem :
    (∀ G : Point, G.x ≠ none →
      (find_order_brute_force G = .ok none ↔
        ∀ m : ℕ, 2 ≤ m → m ≤ (2 * G.p + 2).toNat + 1 →
          ∃ H, iterAdd G m = .ok H ∧
            pointEqPy H (some ⟨none, none, G.a, G.b, G.p⟩) = false)) ∧
    (∀ a b p : ℤ, find_order_brute_force ⟨none, none, a, b, p⟩ = .ok (some 1)) := by
  constructor
  · intro G hGx
    have hit1 : iterAdd G 1 = .ok G := by
      show pointAdd ⟨none, none, G.a, G.b, G.p⟩ G = .ok G
      unfold pointAdd
      rw [if_neg (by simp), if_pos rfl]
    unfold find_order_brute_force
    rw [if_neg hGx]
    show orderLoop G ⟨none, none, G.a, G.b, G.p⟩ (2 * G.p + 2).toNat G 1 = .ok none ↔ _
    rw [orderLoop_none_iff G ⟨none, none, G.a, G.b, G.p⟩ (2 * G.p + 2).toNat G 1 hit1]
    constructor
    · intro h m hm1 hm2
      exact h m hm1 (by omega)
    · intro h m hm1 hm2
      exact h m hm1 (by omega)
  · intro a b p
    rfl

/-- C7, witness: instantiation at the non-identity point `(0, 1)` of
`y² = x³ + x + 1` over `F₅` and at an identity point. -/
theorem claim_C7_witness :
    ((⟨some 0, some 1, 1, 1, ((5 : ℕ) : ℤ)⟩ : Point).x ≠ none ∧
      (find_order_brute_force ⟨some 0, some 1, 1, 1, ((5 : ℕ) : ℤ)⟩ = .ok none ↔
        ∀ m : ℕ, 2 ≤ m → m ≤ (2 * ((5 : ℕ) : ℤ) + 2).toNat + 1 →
          ∃ H, iterAdd ⟨some 0, some 1, 1, 1, ((5 : ℕ) : ℤ)⟩ m = .ok H ∧
            pointEqPy H (some ⟨none, none, 1, 1, ((5 : ℕ) : ℤ)⟩) = false)) ∧
    find_order_brute_force ⟨none, none, 1, 1, ((5 : ℕ) : ℤ)⟩ = .ok (some 1) :=
  ⟨⟨by decide, claim_C7_theorem.1 ⟨some 0, some 1, 1, 1, ((5 : ℕ) : ℤ)⟩ (by decide)⟩,
   claim_C7_theorem.2 1 1 ((5 : ℕ) : ℤ)⟩
end ECC
